import Mathlib

/-
  Verification development for the questionnaire segmentation parser
  (src/main.py of the repository under review).

  The embedding models the parsing core as executable Lean functions over
  `List Char` lines.  Strings are `List Char`; the Python regexes used by the
  code are modelled by explicit scanning functions that reproduce their
  backtracking behaviour on the inputs the parser can produce (lines obtained
  by splitting on '\n', hence containing no '\n'; character classes are
  modelled at their ASCII meaning).  The `while` loops of the source are
  modelled by structurally recursive functions on a fuel argument; every loop
  of the source advances its index by at least one per iteration, so a fuel of
  `lines.length` is always sufficient, and fuel-stability lemmas below make
  that precise.
-/

/-- A line / string of the source program: a list of characters. -/
abbrev Str := List Char

/-- ASCII whitespace, the characters Python's `\s` and `str.strip` treat as
whitespace at their ASCII meaning: space, tab, newline, carriage return,
vertical tab, form feed. -/
def isSpace (c : Char) : Bool :=
  c = ' ' || c = '\t' || c = '\n' || c = '\r' || c = '\x0b' || c = '\x0c'

/-- ASCII decimal digit, the `\d` class of the question pattern. -/
def isDigit (c : Char) : Bool :=
  48 ≤ c.toNat && c.toNat ≤ 57

/-- The delimiter class `[\.)\s]` that follows a question number or an option
label in the source's patterns. -/
def isDelim (c : Char) : Bool :=
  c = '.' || c = ')' || isSpace c

/-- ASCII lowercasing on code points: `A`–`Z` map to `a`–`z`, everything else
is unchanged.  Used to model `re.IGNORECASE` matching. -/
def lowerN (n : Nat) : Nat :=
  if 65 ≤ n ∧ n ≤ 90 then n + 32 else n

/-- Case-insensitive character comparison (ASCII), as performed by the
`re.IGNORECASE` header patterns. -/
def charEqCI (p c : Char) : Bool :=
  lowerN p.toNat = lowerN c.toNat

/-- The option-label class `[a-d1-4]` under `re.IGNORECASE`: a letter `a`–`d`
in either case, or a digit `1`–`4`. -/
def isOptLabelChar (c : Char) : Bool :=
  (97 ≤ lowerN c.toNat && lowerN c.toNat ≤ 100) ||
  (49 ≤ c.toNat && c.toNat ≤ 52)

/-- Python's `str.strip()`: drop whitespace from both ends. -/
def strip (s : Str) : Str :=
  ((s.dropWhile isSpace).reverse.dropWhile isSpace).reverse

/-- Case-insensitive literal prefix match: if `pat` (case-insensitively)
prefixes `s`, return the rest of `s`. -/
def matchCI : Str → Str → Option Str
  | [], s => some s
  | _ :: _, [] => none
  | p :: ps, c :: cs => if charEqCI p c then matchCI ps cs else none

/-- One-or-more whitespace (`\s+`): requires a leading whitespace character
and consumes the maximal whitespace run. -/
def wsPlus (s : Str) : Option Str :=
  match s with
  | [] => none
  | c :: cs => if isSpace c then some (cs.dropWhile isSpace) else none

/-- Matches the words of `ws` in order at the start of `s`, case-insensitively,
separated by `\s+`; anything may follow the last word.  This models the header
patterns such as `^Multiple\s+Choice` with `re.match(..., re.IGNORECASE)`. -/
def matchWords : List Str → Str → Bool
  | [], _ => true
  | w :: rest, s =>
    match matchCI w s with
    | none => false
    | some r =>
      match rest with
      | [] => true
      | _ :: _ =>
        match wsPlus r with
        | none => false
        | some r2 => matchWords rest r2

/-- The `^Multiple\s+Choice` header test (case-insensitive). -/
def isMCHeader (line : Str) : Bool :=
  matchWords ["Multiple".toList, "Choice".toList] line

/-- The `^True\s+or\s+False` header test (case-insensitive). -/
def isTFHeader (line : Str) : Bool :=
  matchWords ["True".toList, "or".toList, "False".toList] line

/-- The `^Short\s+Answer` header test (case-insensitive). -/
def isSAHeader (line : Str) : Bool :=
  matchWords ["Short".toList, "Answer".toList] line

/-- The `^Long\s+Answer` header test (case-insensitive). -/
def isLAHeader (line : Str) : Bool :=
  matchWords ["Long".toList, "Answer".toList] line

/-- The delimiter-and-body part shared by the question and option patterns:
after the captured token, `[\.)\s]+(.+)` must match.  The delimiter run is
greedy but backtracks one character when nothing would be left for `(.+)`:
so the body is the suffix after the maximal delimiter run, unless that suffix
is empty, in which case the last delimiter character becomes the body (and if
there is at most one delimiter in total, the match fails). -/
def delimSplit (rest : Str) : Option Str :=
  let k := (rest.takeWhile isDelim).length
  if k = 0 then none
  else if k < rest.length then some (rest.drop k)
  else if 2 ≤ k then some (rest.drop (k - 1))
  else none

/-- The question pattern `^(\d+)[\.)\s]+(.+)`: a maximal leading digit run
(nonempty), a delimiter run, and a nonempty body.  Returns the captured
number token and the body (group 2, unstripped). -/
def questionMatch (line : Str) : Option (Str × Str) :=
  let d := line.takeWhile isDigit
  if d = [] then none
  else
    match delimSplit (line.drop d.length) with
    | none => none
    | some body => some (d, body)

/-- The option pattern `^([a-d1-4])[\.)\s]+(.+)` with `re.IGNORECASE`: a
single label character, a delimiter run, and a nonempty body.  Returns the
captured label character and the body (group 2, unstripped). -/
def optionMatch (line : Str) : Option (Char × Str) :=
  match line with
  | [] => none
  | c :: rest =>
    if isOptLabelChar c then
      match delimSplit rest with
      | none => none
      | some body => some (c, body)
    else none

/-- The four question kinds (the `"type"` field values of the source's
question dictionaries). -/
inductive QKind
  | mcq
  | true_false
  | short_answer
  | long_answer
deriving DecidableEq

/-- An MCQ option record: the source's `{"letter": ..., "text": ...}`. -/
structure MCOption where
  letter : Str
  text : Str
deriving DecidableEq

/-- A question record: the source's
`{"number": ..., "text": ..., "type": ..., "options": ...}`. -/
structure Question where
  number : Str
  text : Str
  kind : QKind
  options : List MCOption
deriving DecidableEq

/-- The inner option-scanning loop of `parse_mcq_section` (source lines
82–108): starting at `i` with `count` options already taken, repeatedly skip
blank lines, consume lines matching the option pattern (up to 4 in total),
and stop without consuming at the first non-blank line that is not an option.
Returns the collected options and the index of the next unconsumed line.
Structural recursion on fuel; each step advances `i`, so any fuel
`≥ lines.length - i` is exact (see the fuel-stability lemmas). -/
def scanOptionsF (lines : List Str) : Nat → Nat → Nat → List MCOption → List MCOption × Nat
  | 0, i, _, acc => (acc, i)
  | fuel + 1, i, count, acc =>
    if h : i < lines.length then
      if count < 4 then
        let optionLine := strip (lines.get ⟨i, h⟩)
        if optionLine = [] then
          scanOptionsF lines fuel (i + 1) count acc
        else
          match optionMatch optionLine with
          | some (lbl, body) =>
            scanOptionsF lines fuel (i + 1) (count + 1)
              (acc ++ [{ letter := [lbl], text := lbl :: '.' :: ' ' :: strip body }])
          | none => (acc, i)
      else (acc, i)
    else (acc, i)

/-- The outer loop of `parse_mcq_section` (source lines 53–115): skip blanks,
stop (without consuming) at a True/False, Short Answer or Long Answer header,
turn question-pattern lines into MCQ questions (collecting options with the
inner scan and resuming the outer loop at its returned index), and skip any
other line. -/
def mcqLoopF (lines : List Str) : Nat → Nat → List Question → List Question × Nat
  | 0, i, acc => (acc, i)
  | fuel + 1, i, acc =>
    if h : i < lines.length then
      let line := strip (lines.get ⟨i, h⟩)
      if line = [] then mcqLoopF lines fuel (i + 1) acc
      else if isTFHeader line || isSAHeader line || isLAHeader line then (acc, i)
      else
        match questionMatch line with
        | some (num, body) =>
          let r := scanOptionsF lines lines.length (i + 1) 0 []
          mcqLoopF lines fuel r.2
            (acc ++ [{ number := num, text := num ++ '.' :: ' ' :: strip body,
                       kind := QKind.mcq, options := r.1 }])
        | none => mcqLoopF lines fuel (i + 1) acc
    else (acc, i)

/-- The loop shared by the three option-free section parsers
(`parse_true_false_section`, `parse_short_answer_section`,
`parse_long_answer_section`, source lines 129–158 and analogues): skip blanks,
stop (without consuming) at a line matching `isTerm`, turn question-pattern
lines into `k`-kind questions with no options, advance one line per
iteration. -/
def simpleLoopF (lines : List Str) (k : QKind) (isTerm : Str → Bool) :
    Nat → Nat → List Question → List Question × Nat
  | 0, i, acc => (acc, i)
  | fuel + 1, i, acc =>
    if h : i < lines.length then
      let line := strip (lines.get ⟨i, h⟩)
      if line = [] then simpleLoopF lines k isTerm fuel (i + 1) acc
      else if isTerm line then (acc, i)
      else
        match questionMatch line with
        | some (num, body) =>
          simpleLoopF lines k isTerm fuel (i + 1)
            (acc ++ [{ number := num, text := num ++ '.' :: ' ' :: strip body,
                       kind := k, options := [] }])
        | none => simpleLoopF lines k isTerm fuel (i + 1) acc
    else (acc, i)

/-- The shared section prologue (e.g. source lines 50–51): skip exactly one
immediately following blank line, if any. -/
def sectionStart (lines : List Str) (start : Nat) : Nat :=
  if h : start < lines.length then
    if strip (lines.get ⟨start, h⟩) = [] then start + 1 else start
  else start

/-- Terminators of the True/False section (source line 138). -/
def tfTerm (line : Str) : Bool :=
  isMCHeader line || isSAHeader line || isLAHeader line

/-- Terminators of the Short Answer section (source line 181). -/
def saTerm (line : Str) : Bool :=
  isMCHeader line || isTFHeader line || isLAHeader line

/-- Terminators of the Long Answer section (source line 224). -/
def laTerm (line : Str) : Bool :=
  isMCHeader line || isTFHeader line || isSAHeader line

/-- `parse_mcq_section(lines, start_index)` of the source (lines 41–116). -/
def parse_mcq_section (lines : List Str) (start : Nat) : List Question × Nat :=
  mcqLoopF lines lines.length (sectionStart lines start) []

/-- `parse_true_false_section(lines, start_index)` of the source
(lines 118–159). -/
def parse_true_false_section (lines : List Str) (start : Nat) : List Question × Nat :=
  simpleLoopF lines QKind.true_false tfTerm lines.length (sectionStart lines start) []

/-- `parse_short_answer_section(lines, start_index)` of the source
(lines 161–202). -/
def parse_short_answer_section (lines : List Str) (start : Nat) : List Question × Nat :=
  simpleLoopF lines QKind.short_answer saTerm lines.length (sectionStart lines start) []

/-- `parse_long_answer_section(lines, start_index)` of the source
(lines 204–245). -/
def parse_long_answer_section (lines : List Str) (start : Nat) : List Question × Nat :=
  simpleLoopF lines QKind.long_answer laTerm lines.length (sectionStart lines start) []

/-- `re.sub(r'\n+', '\n', text)` (source line 252): collapse every run of
consecutive line breaks to a single line break. -/
def collapseNewlines : Str → Str
  | [] => []
  | [c] => [c]
  | c1 :: c2 :: rest =>
    if c1 = '\n' ∧ c2 = '\n' then collapseNewlines (c2 :: rest)
    else c1 :: collapseNewlines (c2 :: rest)

/-- Python's `text.split('\n')`: split at every newline; `""` splits to
`[""]`. -/
def splitLines : Str → List Str
  | [] => [[]]
  | c :: rest =>
    match splitLines rest with
    | [] => [[]]
    | l :: ls => if c = '\n' then [] :: l :: ls else (c :: l) :: ls

/-- The line-normalization prologue of `parse_questionnaire` (source lines
252–255): collapse newline runs, split into lines, strip each line. -/
def normalizeLines (text : Str) : List Str :=
  (splitLines (collapseNewlines text)).map strip

/-- The dispatcher loop of `parse_questionnaire` (source lines 260–294):
skip blanks, and on a section header consume it, run the matching section
parser from the next index, append its questions, and resume at its returned
index; any other line is skipped. -/
def dispatchLoopF (lines : List Str) : Nat → Nat → List Question → List Question
  | 0, _, acc => acc
  | fuel + 1, i, acc =>
    if h : i < lines.length then
      let line := strip (lines.get ⟨i, h⟩)
      if line = [] then dispatchLoopF lines fuel (i + 1) acc
      else if isMCHeader line then
        let r := parse_mcq_section lines (i + 1)
        dispatchLoopF lines fuel r.2 (acc ++ r.1)
      else if isTFHeader line then
        let r := parse_true_false_section lines (i + 1)
        dispatchLoopF lines fuel r.2 (acc ++ r.1)
      else if isSAHeader line then
        let r := parse_short_answer_section lines (i + 1)
        dispatchLoopF lines fuel r.2 (acc ++ r.1)
      else if isLAHeader line then
        let r := parse_long_answer_section lines (i + 1)
        dispatchLoopF lines fuel r.2 (acc ++ r.1)
      else dispatchLoopF lines fuel (i + 1) acc
    else acc

/-- `parse_questionnaire(text)` of the source (lines 247–297). -/
def parse_questionnaire (text : Str) : List Question :=
  let lines := normalizeLines text
  dispatchLoopF lines lines.length 0 []

/-- The fixed failure-sentinel string returned by `extract_text_from_pdf`
when every extraction strategy fails (source line 39). -/
def extraction_failure_sentinel : Str :=
  "Text extraction failed for this document.".toList

/-- The property bundle maintained for every option record the parser
constructs: its text is its label followed by `". "` and a
whitespace-stripped body. -/
def OptOK (o : MCOption) : Prop :=
  ∃ b, o.text = o.letter ++ '.' :: ' ' :: b ∧ strip b = b

/-- The property bundle maintained for every question record the parser
constructs: at most 4 options, options only for MCQ, and prompt text made of
the number token, `". "`, and a whitespace-stripped body; options likewise. -/
def QOK (q : Question) : Prop :=
  (q.kind = QKind.mcq → q.options.length ≤ 4) ∧
  (q.kind ≠ QKind.mcq → q.options = []) ∧
  (∃ b, q.text = q.number ++ '.' :: ' ' :: b ∧ strip b = b) ∧
  (∀ o ∈ q.options, OptOK o)

theorem dropWhile_dropWhile (p : Char → Bool) (l : Str) :
    (l.dropWhile p).dropWhile p = l.dropWhile p := by
  induction l with
  | nil => rfl
  | cons c cs ih =>
    by_cases h : p c
    · simp [List.dropWhile_cons, h, ih]
    · simp [List.dropWhile_cons, h]

theorem dropWhile_head_false {p : Char → Bool} :
    ∀ {l : Str} {c : Char} {cs : Str}, l.dropWhile p = c :: cs → p c = false := by
  intro l
  induction l with
  | nil => intro c cs h; simp [List.dropWhile] at h
  | cons x xs ih =>
    intro c cs h
    by_cases hx : p x
    · exact ih (by simpa [List.dropWhile_cons, hx] using h)
    · rw [List.dropWhile_cons, if_neg hx] at h
      injection h with h1 _
      subst h1
      simpa using hx

theorem dropWhile_eq_self_of_head {p : Char → Bool} {c : Char} {cs : Str}
    (h : p c = false) : (c :: cs).dropWhile p = c :: cs := by
  simp [List.dropWhile_cons, h]

theorem strip_idem (l : Str) : strip (strip l) = strip l := by
  set A := l.dropWhile isSpace with hAdef
  set B := A.reverse.dropWhile isSpace with hBdef
  have hl : strip l = B.reverse := by rw [strip]
  have h1 : B.reverse.dropWhile isSpace = B.reverse := by
    cases hBr : B.reverse with
    | nil => rfl
    | cons c cs =>
      have hsplit : A.reverse.takeWhile isSpace ++ B = A.reverse :=
        List.takeWhile_append_dropWhile ..
      have hAr : B.reverse ++ (A.reverse.takeWhile isSpace).reverse = A := by
        have h2 := congrArg List.reverse hsplit
        rw [List.reverse_append, List.reverse_reverse] at h2
        exact h2
      have hhead : l.dropWhile isSpace = c :: (cs ++ (A.reverse.takeWhile isSpace).reverse) := by
        rw [← hAdef]
        conv_lhs => rw [← hAr, hBr]
        simp
      have hc : isSpace c = false := dropWhile_head_false hhead
      exact dropWhile_eq_self_of_head hc
  have h2 : B.dropWhile isSpace = B := by rw [hBdef]; exact dropWhile_dropWhile ..
  rw [hl, strip, h1, List.reverse_reverse, h2]

theorem strip_of_all_space {l : Str} (h : ∀ c ∈ l, isSpace c = true) :
    strip l = [] := by
  have : l.dropWhile isSpace = [] := List.dropWhile_eq_nil_iff.mpr h
  simp [strip, this]

theorem matchWords_head_ci (p : Char) (ps : Str) (ws : List Str) {l : Str}
    (h : matchWords ((p :: ps) :: ws) l = true) :
    ∃ c cs, l = c :: cs ∧ lowerN c.toNat = lowerN p.toNat := by
  cases l with
  | nil => simp [matchWords, matchCI] at h
  | cons c cs =>
    by_cases hc : charEqCI p c
    · refine ⟨c, cs, rfl, ?_⟩
      have hc' : lowerN p.toNat = lowerN c.toNat := by simpa [charEqCI] using hc
      exact hc'.symm
    · simp only [Bool.not_eq_true] at hc
      simp [matchWords, matchCI, hc] at h

theorem isMCHeader_head {l : Str} (h : isMCHeader l = true) :
    ∃ c cs, l = c :: cs ∧ lowerN c.toNat = 109 := by
  obtain ⟨c, cs, hl, hc⟩ :=
    matchWords_head_ci 'M' "ultiple".toList ["Choice".toList] h
  exact ⟨c, cs, hl, hc.trans (by decide)⟩

theorem isTFHeader_head {l : Str} (h : isTFHeader l = true) :
    ∃ c cs, l = c :: cs ∧ lowerN c.toNat = 116 := by
  obtain ⟨c, cs, hl, hc⟩ :=
    matchWords_head_ci 'T' "rue".toList ["or".toList, "False".toList] h
  exact ⟨c, cs, hl, hc.trans (by decide)⟩

theorem isSAHeader_head {l : Str} (h : isSAHeader l = true) :
    ∃ c cs, l = c :: cs ∧ lowerN c.toNat = 115 := by
  obtain ⟨c, cs, hl, hc⟩ :=
    matchWords_head_ci 'S' "hort".toList ["Answer".toList] h
  exact ⟨c, cs, hl, hc.trans (by decide)⟩

theorem isLAHeader_head {l : Str} (h : isLAHeader l = true) :
    ∃ c cs, l = c :: cs ∧ lowerN c.toNat = 108 := by
  obtain ⟨c, cs, hl, hc⟩ :=
    matchWords_head_ci 'L' "ong".toList ["Answer".toList] h
  exact ⟨c, cs, hl, hc.trans (by decide)⟩

theorem isMCHeader_false_of_head {c : Char} (cs : Str) (h : lowerN c.toNat ≠ 109) :
    isMCHeader (c :: cs) = false := by
  by_cases hm : isMCHeader (c :: cs)
  · obtain ⟨c', cs', he, hc⟩ := isMCHeader_head hm
    injection he with h1 _
    exact absurd (h1 ▸ hc) h
  · simpa using hm

theorem isTFHeader_false_of_head {c : Char} (cs : Str) (h : lowerN c.toNat ≠ 116) :
    isTFHeader (c :: cs) = false := by
  by_cases hm : isTFHeader (c :: cs)
  · obtain ⟨c', cs', he, hc⟩ := isTFHeader_head hm
    injection he with h1 _
    exact absurd (h1 ▸ hc) h
  · simpa using hm

theorem isSAHeader_false_of_head {c : Char} (cs : Str) (h : lowerN c.toNat ≠ 115) :
    isSAHeader (c :: cs) = false := by
  by_cases hm : isSAHeader (c :: cs)
  · obtain ⟨c', cs', he, hc⟩ := isSAHeader_head hm
    injection he with h1 _
    exact absurd (h1 ▸ hc) h
  · simpa using hm

theorem isLAHeader_false_of_head {c : Char} (cs : Str) (h : lowerN c.toNat ≠ 108) :
    isLAHeader (c :: cs) = false := by
  by_cases hm : isLAHeader (c :: cs)
  · obtain ⟨c', cs', he, hc⟩ := isLAHeader_head hm
    injection he with h1 _
    exact absurd (h1 ▸ hc) h
  · simpa using hm

theorem questionMatch_shape {l : Str} {p : Str × Str} (h : questionMatch l = some p) :
    ∃ c cs, l = c :: cs ∧ isDigit c = true := by
  cases l with
  | nil => simp [questionMatch] at h
  | cons c cs =>
    by_cases hd : isDigit c
    · exact ⟨c, cs, rfl, hd⟩
    · simp only [Bool.not_eq_true] at hd
      simp [questionMatch, List.takeWhile_cons, hd] at h

theorem optionMatch_shape {l : Str} {p : Char × Str} (h : optionMatch l = some p) :
    ∃ c cs, l = c :: cs ∧ isOptLabelChar c = true := by
  cases l with
  | nil => simp [optionMatch] at h
  | cons c cs =>
    by_cases ho : isOptLabelChar c
    · exact ⟨c, cs, rfl, ho⟩
    · simp only [Bool.not_eq_true] at ho
      simp [optionMatch, ho] at h

theorem lowerN_of_digit {c : Char} (h : isDigit c = true) :
    lowerN c.toNat = c.toNat ∧ 48 ≤ c.toNat ∧ c.toNat ≤ 57 := by
  have h' : 48 ≤ c.toNat ∧ c.toNat ≤ 57 := by simpa [isDigit] using h
  refine ⟨?_, h'.1, h'.2⟩
  unfold lowerN
  rw [if_neg (by omega)]

theorem headers_false_of_digit {c : Char} (cs : Str) (h : isDigit c = true) :
    isMCHeader (c :: cs) = false ∧ isTFHeader (c :: cs) = false ∧
    isSAHeader (c :: cs) = false ∧ isLAHeader (c :: cs) = false := by
  obtain ⟨he, h48, h57⟩ := lowerN_of_digit h
  exact ⟨isMCHeader_false_of_head cs (by omega), isTFHeader_false_of_head cs (by omega),
    isSAHeader_false_of_head cs (by omega), isLAHeader_false_of_head cs (by omega)⟩

theorem lowerN_bounds_of_optLabel {c : Char} (h : isOptLabelChar c = true) :
    (97 ≤ lowerN c.toNat ∧ lowerN c.toNat ≤ 100) ∨
    (49 ≤ lowerN c.toNat ∧ lowerN c.toNat ≤ 52) := by
  simp [isOptLabelChar] at h
  rcases h with h | h
  · exact Or.inl h
  · refine Or.inr ?_
    have he : lowerN c.toNat = c.toNat := by
      unfold lowerN
      rw [if_neg (by omega)]
    omega

theorem headers_false_of_optLabel {c : Char} (cs : Str) (h : isOptLabelChar c = true) :
    isMCHeader (c :: cs) = false ∧ isTFHeader (c :: cs) = false ∧
    isSAHeader (c :: cs) = false ∧ isLAHeader (c :: cs) = false := by
  have hb := lowerN_bounds_of_optLabel h
  exact ⟨isMCHeader_false_of_head cs (by omega), isTFHeader_false_of_head cs (by omega),
    isSAHeader_false_of_head cs (by omega), isLAHeader_false_of_head cs (by omega)⟩

theorem scanOptionsF_ge (lines : List Str) :
    ∀ fuel i count acc, i ≤ (scanOptionsF lines fuel i count acc).2 := by
  intro fuel
  induction fuel with
  | zero => intro i count acc; exact Nat.le_refl i
  | succ f ih =>
    intro i count acc
    by_cases hlt : i < lines.length
    · by_cases hc : count < 4
      · by_cases hb : strip (lines.get ⟨i, hlt⟩) = []
        · simp only [scanOptionsF, dif_pos hlt, if_pos hc, if_pos hb]
          exact Nat.le_of_succ_le (ih (i + 1) count acc)
        · cases hm : optionMatch (strip (lines.get ⟨i, hlt⟩)) with
          | some p =>
            obtain ⟨lbl, body⟩ := p
            simp only [scanOptionsF, dif_pos hlt, if_pos hc, if_neg hb, hm]
            exact Nat.le_of_succ_le (ih (i + 1) (count + 1) _)
          | none =>
            simp only [scanOptionsF, dif_pos hlt, if_pos hc, if_neg hb, hm]
            exact Nat.le_refl i
      · simp only [scanOptionsF, dif_pos hlt, if_neg hc]
        exact Nat.le_refl i
    · simp only [scanOptionsF, dif_neg hlt]
      exact Nat.le_refl i

theorem scanOptionsF_le (lines : List Str) :
    ∀ fuel i count acc, i ≤ lines.length →
      (scanOptionsF lines fuel i count acc).2 ≤ lines.length := by
  intro fuel
  induction fuel with
  | zero => intro i count acc h; exact h
  | succ f ih =>
    intro i count acc h
    by_cases hlt : i < lines.length
    · by_cases hc : count < 4
      · by_cases hb : strip (lines.get ⟨i, hlt⟩) = []
        · simp only [scanOptionsF, dif_pos hlt, if_pos hc, if_pos hb]
          exact ih (i + 1) count acc (by omega)
        · cases hm : optionMatch (strip (lines.get ⟨i, hlt⟩)) with
          | some p =>
            obtain ⟨lbl, body⟩ := p
            simp only [scanOptionsF, dif_pos hlt, if_pos hc, if_neg hb, hm]
            exact ih (i + 1) (count + 1) _ (by omega)
          | none =>
            simp only [scanOptionsF, dif_pos hlt, if_pos hc, if_neg hb, hm]
            exact h
      · simp only [scanOptionsF, dif_pos hlt, if_neg hc]
        exact h
    · simp only [scanOptionsF, dif_neg hlt]
      exact h

theorem mcqLoopF_ge (lines : List Str) :
    ∀ fuel i acc, i ≤ (mcqLoopF lines fuel i acc).2 := by
  intro fuel
  induction fuel with
  | zero => intro i acc; exact Nat.le_refl i
  | succ f ih =>
    intro i acc
    by_cases hlt : i < lines.length
    · by_cases hb : strip (lines.get ⟨i, hlt⟩) = []
      · simp only [mcqLoopF, dif_pos hlt, if_pos hb]
        exact Nat.le_of_succ_le (ih (i + 1) acc)
      · by_cases ht : (isTFHeader (strip (lines.get ⟨i, hlt⟩)) ||
            isSAHeader (strip (lines.get ⟨i, hlt⟩)) ||
            isLAHeader (strip (lines.get ⟨i, hlt⟩))) = true
        · simp only [mcqLoopF, dif_pos hlt, if_neg hb, if_pos ht]
          exact Nat.le_refl i
        · cases hm : questionMatch (strip (lines.get ⟨i, hlt⟩)) with
          | some p =>
            obtain ⟨num, body⟩ := p
            simp only [mcqLoopF, dif_pos hlt, if_neg hb, if_neg ht, hm]
            have h1 := scanOptionsF_ge lines lines.length (i + 1) 0 []
            have h2 := ih (scanOptionsF lines lines.length (i + 1) 0 []).2 (acc ++
              [{ number := num, text := num ++ '.' :: ' ' :: strip body,
                 kind := QKind.mcq, options := (scanOptionsF lines lines.length (i + 1) 0 []).1 }])
            omega
          | none =>
            simp only [mcqLoopF, dif_pos hlt, if_neg hb, if_neg ht, hm]
            exact Nat.le_of_succ_le (ih (i + 1) acc)
    · simp only [mcqLoopF, dif_neg hlt]
      exact Nat.le_refl i

theorem mcqLoopF_le (lines : List Str) :
    ∀ fuel i acc, i ≤ lines.length →
      (mcqLoopF lines fuel i acc).2 ≤ lines.length := by
  intro fuel
  induction fuel with
  | zero => intro i acc h; exact h
  | succ f ih =>
    intro i acc h
    by_cases hlt : i < lines.length
    · by_cases hb : strip (lines.get ⟨i, hlt⟩) = []
      · simp only [mcqLoopF, dif_pos hlt, if_pos hb]
        exact ih (i + 1) acc (by omega)
      · by_cases ht : (isTFHeader (strip (lines.get ⟨i, hlt⟩)) ||
            isSAHeader (strip (lines.get ⟨i, hlt⟩)) ||
            isLAHeader (strip (lines.get ⟨i, hlt⟩))) = true
        · simp only [mcqLoopF, dif_pos hlt, if_neg hb, if_pos ht]
          exact h
        · cases hm : questionMatch (strip (lines.get ⟨i, hlt⟩)) with
          | some p =>
            obtain ⟨num, body⟩ := p
            simp only [mcqLoopF, dif_pos hlt, if_neg hb, if_neg ht, hm]
            exact ih _ _ (scanOptionsF_le lines lines.length (i + 1) 0 [] (by omega))
          | none =>
            simp only [mcqLoopF, dif_pos hlt, if_neg hb, if_neg ht, hm]
            exact ih (i + 1) acc (by omega)
    · simp only [mcqLoopF, dif_neg hlt]
      exact h

theorem simpleLoopF_ge (lines : List Str) (k : QKind) (isTerm : Str → Bool) :
    ∀ fuel i acc, i ≤ (simpleLoopF lines k isTerm fuel i acc).2 := by
  intro fuel
  induction fuel with
  | zero => intro i acc; exact Nat.le_refl i
  | succ f ih =>
    intro i acc
    by_cases hlt : i < lines.length
    · by_cases hb : strip (lines.get ⟨i, hlt⟩) = []
      · simp only [simpleLoopF, dif_pos hlt, if_pos hb]
        exact Nat.le_of_succ_le (ih (i + 1) acc)
      · by_cases ht : isTerm (strip (lines.get ⟨i, hlt⟩)) = true
        · simp only [simpleLoopF, dif_pos hlt, if_neg hb, if_pos ht]
          exact Nat.le_refl i
        · cases hm : questionMatch (strip (lines.get ⟨i, hlt⟩)) with
          | some p =>
            obtain ⟨num, body⟩ := p
            simp only [simpleLoopF, dif_pos hlt, if_neg hb, if_neg ht, hm]
            exact Nat.le_of_succ_le (ih (i + 1) _)
          | none =>
            simp only [simpleLoopF, dif_pos hlt, if_neg hb, if_neg ht, hm]
            exact Nat.le_of_succ_le (ih (i + 1) acc)
    · simp only [simpleLoopF, dif_neg hlt]
      exact Nat.le_refl i

theorem simpleLoopF_le (lines : List Str) (k : QKind) (isTerm : Str → Bool) :
    ∀ fuel i acc, i ≤ lines.length →
      (simpleLoopF lines k isTerm fuel i acc).2 ≤ lines.length := by
  intro fuel
  induction fuel with
  | zero => intro i acc h; exact h
  | succ f ih =>
    intro i acc h
    by_cases hlt : i < lines.length
    · by_cases hb : strip (lines.get ⟨i, hlt⟩) = []
      · simp only [simpleLoopF, dif_pos hlt, if_pos hb]
        exact ih (i + 1) acc (by omega)
      · by_cases ht : isTerm (strip (lines.get ⟨i, hlt⟩)) = true
        · simp only [simpleLoopF, dif_pos hlt, if_neg hb, if_pos ht]
          exact h
        · cases hm : questionMatch (strip (lines.get ⟨i, hlt⟩)) with
          | some p =>
            obtain ⟨num, body⟩ := p
            simp only [simpleLoopF, dif_pos hlt, if_neg hb, if_neg ht, hm]
            exact ih (i + 1) _ (by omega)
          | none =>
            simp only [simpleLoopF, dif_pos hlt, if_neg hb, if_neg ht, hm]
            exact ih (i + 1) acc (by omega)
    · simp only [simpleLoopF, dif_neg hlt]
      exact h

theorem sectionStart_ge (lines : List Str) (start : Nat) :
    start ≤ sectionStart lines start := by
  unfold sectionStart
  by_cases hlt : start < lines.length
  · simp only [dif_pos hlt]
    by_cases hb : strip (lines.get ⟨start, hlt⟩) = []
    · simp only [if_pos hb]; omega
    · simp only [if_neg hb]
      exact Nat.le_refl start
  · simp only [dif_neg hlt]
    exact Nat.le_refl start

theorem sectionStart_le (lines : List Str) (start : Nat) (h : start ≤ lines.length) :
    sectionStart lines start ≤ lines.length := by
  unfold sectionStart
  by_cases hlt : start < lines.length
  · simp only [dif_pos hlt]
    by_cases hb : strip (lines.get ⟨start, hlt⟩) = []
    · simp only [if_pos hb]; omega
    · simp only [if_neg hb]; omega
  · simp only [dif_neg hlt]; exact h

theorem parse_mcq_section_ge (lines : List Str) (start : Nat) :
    start ≤ (parse_mcq_section lines start).2 :=
  le_trans (sectionStart_ge lines start) (mcqLoopF_ge lines lines.length _ [])

theorem parse_mcq_section_le (lines : List Str) (start : Nat) (h : start ≤ lines.length) :
    (parse_mcq_section lines start).2 ≤ lines.length :=
  mcqLoopF_le lines lines.length _ [] (sectionStart_le lines start h)

theorem parse_true_false_section_ge (lines : List Str) (start : Nat) :
    start ≤ (parse_true_false_section lines start).2 :=
  le_trans (sectionStart_ge lines start) (simpleLoopF_ge lines _ _ lines.length _ [])

theorem parse_true_false_section_le (lines : List Str) (start : Nat) (h : start ≤ lines.length) :
    (parse_true_false_section lines start).2 ≤ lines.length :=
  simpleLoopF_le lines _ _ lines.length _ [] (sectionStart_le lines start h)

theorem parse_short_answer_section_ge (lines : List Str) (start : Nat) :
    start ≤ (parse_short_answer_section lines start).2 :=
  le_trans (sectionStart_ge lines start) (simpleLoopF_ge lines _ _ lines.length _ [])

theorem parse_short_answer_section_le (lines : List Str) (start : Nat) (h : start ≤ lines.length) :
    (parse_short_answer_section lines start).2 ≤ lines.length :=
  simpleLoopF_le lines _ _ lines.length _ [] (sectionStart_le lines start h)

theorem parse_long_answer_section_ge (lines : List Str) (start : Nat) :
    start ≤ (parse_long_answer_section lines start).2 :=
  le_trans (sectionStart_ge lines start) (simpleLoopF_ge lines _ _ lines.length _ [])

theorem parse_long_answer_section_le (lines : List Str) (start : Nat) (h : start ≤ lines.length) :
    (parse_long_answer_section lines start).2 ≤ lines.length :=
  simpleLoopF_le lines _ _ lines.length _ [] (sectionStart_le lines start h)

theorem scanOptionsF_fuel_succ (lines : List Str) :
    ∀ fuel i count acc, lines.length - i ≤ fuel →
      scanOptionsF lines (fuel + 1) i count acc = scanOptionsF lines fuel i count acc := by
  intro fuel
  induction fuel with
  | zero =>
    intro i count acc h
    have hlt : ¬ i < lines.length := by omega
    simp only [scanOptionsF, dif_neg hlt]
  | succ f ih =>
    intro i count acc h
    conv_lhs => rw [scanOptionsF]
    conv_rhs => rw [scanOptionsF]
    by_cases hlt : i < lines.length
    · by_cases hc : count < 4
      · by_cases hb : strip (lines.get ⟨i, hlt⟩) = []
        · simp only [dif_pos hlt, if_pos hc, if_pos hb]
          exact ih (i + 1) count acc (by omega)
        · cases hm : optionMatch (strip (lines.get ⟨i, hlt⟩)) with
          | some p =>
            obtain ⟨lbl, body⟩ := p
            simp only [dif_pos hlt, if_pos hc, if_neg hb, hm]
            exact ih (i + 1) (count + 1) _ (by omega)
          | none =>
            simp only [dif_pos hlt, if_pos hc, if_neg hb, hm]
      · simp only [dif_pos hlt, if_neg hc]
    · simp only [dif_neg hlt]

theorem mcqLoopF_fuel_succ (lines : List Str) :
    ∀ fuel i acc, lines.length - i ≤ fuel →
      mcqLoopF lines (fuel + 1) i acc = mcqLoopF lines fuel i acc := by
  intro fuel
  induction fuel with
  | zero =>
    intro i acc h
    have hlt : ¬ i < lines.length := by omega
    simp only [mcqLoopF, dif_neg hlt]
  | succ f ih =>
    intro i acc h
    conv_lhs => rw [mcqLoopF]
    conv_rhs => rw [mcqLoopF]
    by_cases hlt : i < lines.length
    · by_cases hb : strip (lines.get ⟨i, hlt⟩) = []
      · simp only [dif_pos hlt, if_pos hb]
        exact ih (i + 1) acc (by omega)
      · by_cases ht : (isTFHeader (strip (lines.get ⟨i, hlt⟩)) ||
            isSAHeader (strip (lines.get ⟨i, hlt⟩)) ||
            isLAHeader (strip (lines.get ⟨i, hlt⟩))) = true
        · simp only [dif_pos hlt, if_neg hb, if_pos ht]
        · cases hm : questionMatch (strip (lines.get ⟨i, hlt⟩)) with
          | some p =>
            obtain ⟨num, body⟩ := p
            simp only [dif_pos hlt, if_neg hb, if_neg ht, hm]
            have hge := scanOptionsF_ge lines lines.length (i + 1) 0 []
            exact ih _ _ (by omega)
          | none =>
            simp only [dif_pos hlt, if_neg hb, if_neg ht, hm]
            exact ih (i + 1) acc (by omega)
    · simp only [dif_neg hlt]

theorem simpleLoopF_fuel_succ (lines : List Str) (k : QKind) (isTerm : Str → Bool) :
    ∀ fuel i acc, lines.length - i ≤ fuel →
      simpleLoopF lines k isTerm (fuel + 1) i acc = simpleLoopF lines k isTerm fuel i acc := by
  intro fuel
  induction fuel with
  | zero =>
    intro i acc h
    have hlt : ¬ i < lines.length := by omega
    simp only [simpleLoopF, dif_neg hlt]
  | succ f ih =>
    intro i acc h
    conv_lhs => rw [simpleLoopF]
    conv_rhs => rw [simpleLoopF]
    by_cases hlt : i < lines.length
    · by_cases hb : strip (lines.get ⟨i, hlt⟩) = []
      · simp only [dif_pos hlt, if_pos hb]
        exact ih (i + 1) acc (by omega)
      · by_cases ht : isTerm (strip (lines.get ⟨i, hlt⟩)) = true
        · simp only [dif_pos hlt, if_neg hb, if_pos ht]
        · cases hm : questionMatch (strip (lines.get ⟨i, hlt⟩)) with
          | some p =>
            obtain ⟨num, body⟩ := p
            simp only [dif_pos hlt, if_neg hb, if_neg ht, hm]
            exact ih (i + 1) _ (by omega)
          | none =>
            simp only [dif_pos hlt, if_neg hb, if_neg ht, hm]
            exact ih (i + 1) acc (by omega)
    · simp only [dif_neg hlt]

theorem dispatchLoopF_fuel_succ (lines : List Str) :
    ∀ fuel i acc, lines.length - i ≤ fuel →
      dispatchLoopF lines (fuel + 1) i acc = dispatchLoopF lines fuel i acc := by
  intro fuel
  induction fuel with
  | zero =>
    intro i acc h
    have hlt : ¬ i < lines.length := by omega
    simp only [dispatchLoopF, dif_neg hlt]
  | succ f ih =>
    intro i acc h
    conv_lhs => rw [dispatchLoopF]
    conv_rhs => rw [dispatchLoopF]
    by_cases hlt : i < lines.length
    · by_cases hb : strip (lines.get ⟨i, hlt⟩) = []
      · simp only [dif_pos hlt, if_pos hb]
        exact ih (i + 1) acc (by omega)
      · by_cases hmc : isMCHeader (strip (lines.get ⟨i, hlt⟩)) = true
        · simp only [dif_pos hlt, if_neg hb, if_pos hmc]
          have hge := parse_mcq_section_ge lines (i + 1)
          exact ih _ _ (by omega)
        · by_cases htf : isTFHeader (strip (lines.get ⟨i, hlt⟩)) = true
          · simp only [dif_pos hlt, if_neg hb, if_neg hmc, if_pos htf]
            have hge := parse_true_false_section_ge lines (i + 1)
            exact ih _ _ (by omega)
          · by_cases hsa : isSAHeader (strip (lines.get ⟨i, hlt⟩)) = true
            · simp only [dif_pos hlt, if_neg hb, if_neg hmc, if_neg htf, if_pos hsa]
              have hge := parse_short_answer_section_ge lines (i + 1)
              exact ih _ _ (by omega)
            · by_cases hla : isLAHeader (strip (lines.get ⟨i, hlt⟩)) = true
              · simp only [dif_pos hlt, if_neg hb, if_neg hmc, if_neg htf,
                  if_neg hsa, if_pos hla]
                have hge := parse_long_answer_section_ge lines (i + 1)
                exact ih _ _ (by omega)
              · simp only [dif_pos hlt, if_neg hb, if_neg hmc, if_neg htf,
                  if_neg hsa, if_neg hla]
                exact ih (i + 1) acc (by omega)
    · simp only [dif_neg hlt]

theorem dispatchLoopF_fuel_add (lines : List Str) :
    ∀ extra fuel i acc, lines.length - i ≤ fuel →
      dispatchLoopF lines (fuel + extra) i acc = dispatchLoopF lines fuel i acc := by
  intro extra
  induction extra with
  | zero => intro fuel i acc _; rfl
  | succ e ih =>
    intro fuel i acc h
    have h1 : dispatchLoopF lines ((fuel + e) + 1) i acc = dispatchLoopF lines (fuel + e) i acc :=
      dispatchLoopF_fuel_succ lines (fuel + e) i acc (by omega)
    calc dispatchLoopF lines (fuel + (e + 1)) i acc
        = dispatchLoopF lines ((fuel + e) + 1) i acc := rfl
      _ = dispatchLoopF lines (fuel + e) i acc := h1
      _ = dispatchLoopF lines fuel i acc := ih fuel i acc h

theorem scanOptionsF_length (lines : List Str) :
    ∀ fuel i count acc,
      (scanOptionsF lines fuel i count acc).1.length ≤ acc.length + (4 - count) := by
  intro fuel
  induction fuel with
  | zero => intro i count acc; exact Nat.le_add_right _ _
  | succ f ih =>
    intro i count acc
    by_cases hlt : i < lines.length
    · by_cases hc : count < 4
      · by_cases hb : strip (lines.get ⟨i, hlt⟩) = []
        · simp only [scanOptionsF, dif_pos hlt, if_pos hc, if_pos hb]
          exact ih (i + 1) count acc
        · cases hm : optionMatch (strip (lines.get ⟨i, hlt⟩)) with
          | some p =>
            obtain ⟨lbl, body⟩ := p
            simp only [scanOptionsF, dif_pos hlt, if_pos hc, if_neg hb, hm]
            have hrec := ih (i + 1) (count + 1)
              (acc ++ [{ letter := [lbl], text := lbl :: '.' :: ' ' :: strip body }])
            simp only [List.length_append, List.length_cons, List.length_nil] at hrec
            omega
          | none =>
            simp only [scanOptionsF, dif_pos hlt, if_pos hc, if_neg hb, hm]
            exact Nat.le_add_right _ _
      · simp only [scanOptionsF, dif_pos hlt, if_neg hc]
        exact Nat.le_add_right _ _
    · simp only [scanOptionsF, dif_neg hlt]
      exact Nat.le_add_right _ _

theorem scanOptionsF_mem (lines : List Str) :
    ∀ fuel i count acc o, o ∈ (scanOptionsF lines fuel i count acc).1 →
      o ∈ acc ∨ OptOK o := by
  intro fuel
  induction fuel with
  | zero => intro i count acc o ho; exact Or.inl ho
  | succ f ih =>
    intro i count acc o ho
    by_cases hlt : i < lines.length
    · by_cases hc : count < 4
      · by_cases hb : strip (lines.get ⟨i, hlt⟩) = []
        · simp only [scanOptionsF, dif_pos hlt, if_pos hc, if_pos hb] at ho
          exact ih (i + 1) count acc o ho
        · cases hm : optionMatch (strip (lines.get ⟨i, hlt⟩)) with
          | some p =>
            obtain ⟨lbl, body⟩ := p
            simp only [scanOptionsF, dif_pos hlt, if_pos hc, if_neg hb, hm] at ho
            rcases ih (i + 1) (count + 1) _ o ho with hmem | hok
            · rcases List.mem_append.mp hmem with hmem' | hmem'
              · exact Or.inl hmem'
              · refine Or.inr ?_
                have : o = { letter := [lbl], text := lbl :: '.' :: ' ' :: strip body } := by
                  simpa using hmem'
                rw [this]
                exact ⟨strip body, rfl, strip_idem body⟩
            · exact Or.inr hok
          | none =>
            simp only [scanOptionsF, dif_pos hlt, if_pos hc, if_neg hb, hm] at ho
            exact Or.inl ho
      · simp only [scanOptionsF, dif_pos hlt, if_neg hc] at ho
        exact Or.inl ho
    · simp only [scanOptionsF, dif_neg hlt] at ho
      exact Or.inl ho

theorem mcqLoopF_QOK (lines : List Str) :
    ∀ fuel i acc, (∀ q ∈ acc, QOK q) →
      ∀ q ∈ (mcqLoopF lines fuel i acc).1, QOK q := by
  intro fuel
  induction fuel with
  | zero => intro i acc hacc q hq; exact hacc q hq
  | succ f ih =>
    intro i acc hacc q hq
    by_cases hlt : i < lines.length
    · by_cases hb : strip (lines.get ⟨i, hlt⟩) = []
      · simp only [mcqLoopF, dif_pos hlt, if_pos hb] at hq
        exact ih (i + 1) acc hacc q hq
      · by_cases ht : (isTFHeader (strip (lines.get ⟨i, hlt⟩)) ||
            isSAHeader (strip (lines.get ⟨i, hlt⟩)) ||
            isLAHeader (strip (lines.get ⟨i, hlt⟩))) = true
        · simp only [mcqLoopF, dif_pos hlt, if_neg hb, if_pos ht] at hq
          exact hacc q hq
        · cases hm : questionMatch (strip (lines.get ⟨i, hlt⟩)) with
          | some p =>
            obtain ⟨num, body⟩ := p
            simp only [mcqLoopF, dif_pos hlt, if_neg hb, if_neg ht, hm] at hq
            refine ih _ _ ?_ q hq
            intro q' hq'
            rcases List.mem_append.mp hq' with hq'' | hq''
            · exact hacc q' hq''
            · have hq3 : q' = ⟨num, num ++ ('.' :: ' ' :: strip body), QKind.mcq,
                  (scanOptionsF lines lines.length (i + 1) 0 []).1⟩ := by
                simpa using hq''
              rw [hq3]
              refine ⟨?_, ?_, ?_, ?_⟩
              · intro _
                have hl := scanOptionsF_length lines lines.length (i + 1) 0 []
                simpa using hl
              · intro hne
                exact absurd rfl hne
              · exact ⟨strip body, rfl, strip_idem body⟩
              · intro o ho
                rcases scanOptionsF_mem lines lines.length (i + 1) 0 [] o ho with h0 | h0
                · exact absurd h0 (List.not_mem_nil o)
                · exact h0
          | none =>
            simp only [mcqLoopF, dif_pos hlt, if_neg hb, if_neg ht, hm] at hq
            exact ih (i + 1) acc hacc q hq
    · simp only [mcqLoopF, dif_neg hlt] at hq
      exact hacc q hq

theorem simpleLoopF_QOK (lines : List Str) (k : QKind) (isTerm : Str → Bool) :
    ∀ fuel i acc, (∀ q ∈ acc, QOK q) →
      ∀ q ∈ (simpleLoopF lines k isTerm fuel i acc).1, QOK q := by
  intro fuel
  induction fuel with
  | zero => intro i acc hacc q hq; exact hacc q hq
  | succ f ih =>
    intro i acc hacc q hq
    by_cases hlt : i < lines.length
    · by_cases hb : strip (lines.get ⟨i, hlt⟩) = []
      · simp only [simpleLoopF, dif_pos hlt, if_pos hb] at hq
        exact ih (i + 1) acc hacc q hq
      · by_cases ht : isTerm (strip (lines.get ⟨i, hlt⟩)) = true
        · simp only [simpleLoopF, dif_pos hlt, if_neg hb, if_pos ht] at hq
          exact hacc q hq
        · cases hm : questionMatch (strip (lines.get ⟨i, hlt⟩)) with
          | some p =>
            obtain ⟨num, body⟩ := p
            simp only [simpleLoopF, dif_pos hlt, if_neg hb, if_neg ht, hm] at hq
            refine ih _ _ ?_ q hq
            intro q' hq'
            rcases List.mem_append.mp hq' with hq'' | hq''
            · exact hacc q' hq''
            · have hq3 : q' = ⟨num, num ++ ('.' :: ' ' :: strip body), k,
                  ([] : List MCOption)⟩ := by
                simpa using hq''
              rw [hq3]
              refine ⟨?_, ?_, ?_, ?_⟩
              · intro _; simp
              · intro _; rfl
              · exact ⟨strip body, rfl, strip_idem body⟩
              · intro o ho
                exact absurd ho (List.not_mem_nil o)
          | none =>
            simp only [simpleLoopF, dif_pos hlt, if_neg hb, if_neg ht, hm] at hq
            exact ih (i + 1) acc hacc q hq
    · simp only [simpleLoopF, dif_neg hlt] at hq
      exact hacc q hq

theorem parse_mcq_section_QOK (lines : List Str) (start : Nat) :
    ∀ q ∈ (parse_mcq_section lines start).1, QOK q :=
  mcqLoopF_QOK lines lines.length _ [] (by simp)

theorem parse_true_false_section_QOK (lines : List Str) (start : Nat) :
    ∀ q ∈ (parse_true_false_section lines start).1, QOK q :=
  simpleLoopF_QOK lines _ _ lines.length _ [] (by simp)

theorem parse_short_answer_section_QOK (lines : List Str) (start : Nat) :
    ∀ q ∈ (parse_short_answer_section lines start).1, QOK q :=
  simpleLoopF_QOK lines _ _ lines.length _ [] (by simp)

theorem parse_long_answer_section_QOK (lines : List Str) (start : Nat) :
    ∀ q ∈ (parse_long_answer_section lines start).1, QOK q :=
  simpleLoopF_QOK lines _ _ lines.length _ [] (by simp)

theorem dispatchLoopF_QOK (lines : List Str) :
    ∀ fuel i acc, (∀ q ∈ acc, QOK q) →
      ∀ q ∈ dispatchLoopF lines fuel i acc, QOK q := by
  intro fuel
  induction fuel with
  | zero => intro i acc hacc q hq; exact hacc q hq
  | succ f ih =>
    intro i acc hacc q hq
    by_cases hlt : i < lines.length
    · by_cases hb : strip (lines.get ⟨i, hlt⟩) = []
      · simp only [dispatchLoopF, dif_pos hlt, if_pos hb] at hq
        exact ih (i + 1) acc hacc q hq
      · by_cases hmc : isMCHeader (strip (lines.get ⟨i, hlt⟩)) = true
        · simp only [dispatchLoopF, dif_pos hlt, if_neg hb, if_pos hmc] at hq
          refine ih _ _ ?_ q hq
          intro q' hq'
          rcases List.mem_append.mp hq' with h0 | h0
          · exact hacc q' h0
          · exact parse_mcq_section_QOK lines (i + 1) q' h0
        · by_cases htf : isTFHeader (strip (lines.get ⟨i, hlt⟩)) = true
          · simp only [dispatchLoopF, dif_pos hlt, if_neg hb, if_neg hmc, if_pos htf] at hq
            refine ih _ _ ?_ q hq
            intro q' hq'
            rcases List.mem_append.mp hq' with h0 | h0
            · exact hacc q' h0
            · exact parse_true_false_section_QOK lines (i + 1) q' h0
          · by_cases hsa : isSAHeader (strip (lines.get ⟨i, hlt⟩)) = true
            · simp only [dispatchLoopF, dif_pos hlt, if_neg hb, if_neg hmc, if_neg htf,
                if_pos hsa] at hq
              refine ih _ _ ?_ q hq
              intro q' hq'
              rcases List.mem_append.mp hq' with h0 | h0
              · exact hacc q' h0
              · exact parse_short_answer_section_QOK lines (i + 1) q' h0
            · by_cases hla : isLAHeader (strip (lines.get ⟨i, hlt⟩)) = true
              · simp only [dispatchLoopF, dif_pos hlt, if_neg hb, if_neg hmc, if_neg htf,
                  if_neg hsa, if_pos hla] at hq
                refine ih _ _ ?_ q hq
                intro q' hq'
                rcases List.mem_append.mp hq' with h0 | h0
                · exact hacc q' h0
                · exact parse_long_answer_section_QOK lines (i + 1) q' h0
              · simp only [dispatchLoopF, dif_pos hlt, if_neg hb, if_neg hmc, if_neg htf,
                  if_neg hsa, if_neg hla] at hq
                exact ih (i + 1) acc hacc q hq
    · simp only [dispatchLoopF, dif_neg hlt] at hq
      exact hacc q hq

theorem parse_questionnaire_QOK (text : Str) :
    ∀ q ∈ parse_questionnaire text, QOK q := by
  intro q hq
  exact dispatchLoopF_QOK (normalizeLines text) (normalizeLines text).length 0 [] (by simp) q hq

theorem dispatchLoopF_append (lines : List Str) :
    ∀ fuel i acc, dispatchLoopF lines fuel i acc = acc ++ dispatchLoopF lines fuel i [] := by
  intro fuel
  induction fuel with
  | zero => intro i acc; simp [dispatchLoopF]
  | succ f ih =>
    intro i acc
    by_cases hlt : i < lines.length
    · by_cases hb : strip (lines.get ⟨i, hlt⟩) = []
      · simp only [dispatchLoopF, dif_pos hlt, if_pos hb]
        exact ih (i + 1) acc
      · by_cases hmc : isMCHeader (strip (lines.get ⟨i, hlt⟩)) = true
        · simp only [dispatchLoopF, dif_pos hlt, if_neg hb, if_pos hmc, List.nil_append]
          rw [ih ((parse_mcq_section lines (i + 1)).2) (acc ++ (parse_mcq_section lines (i + 1)).1),
            ih ((parse_mcq_section lines (i + 1)).2) ((parse_mcq_section lines (i + 1)).1),
            List.append_assoc]
        · by_cases htf : isTFHeader (strip (lines.get ⟨i, hlt⟩)) = true
          · simp only [dispatchLoopF, dif_pos hlt, if_neg hb, if_neg hmc, if_pos htf,
              List.nil_append]
            rw [ih ((parse_true_false_section lines (i + 1)).2)
                (acc ++ (parse_true_false_section lines (i + 1)).1),
              ih ((parse_true_false_section lines (i + 1)).2)
                ((parse_true_false_section lines (i + 1)).1),
              List.append_assoc]
          · by_cases hsa : isSAHeader (strip (lines.get ⟨i, hlt⟩)) = true
            · simp only [dispatchLoopF, dif_pos hlt, if_neg hb, if_neg hmc, if_neg htf,
                if_pos hsa, List.nil_append]
              rw [ih ((parse_short_answer_section lines (i + 1)).2)
                  (acc ++ (parse_short_answer_section lines (i + 1)).1),
                ih ((parse_short_answer_section lines (i + 1)).2)
                  ((parse_short_answer_section lines (i + 1)).1),
                List.append_assoc]
            · by_cases hla : isLAHeader (strip (lines.get ⟨i, hlt⟩)) = true
              · simp only [dispatchLoopF, dif_pos hlt, if_neg hb, if_neg hmc, if_neg htf,
                  if_neg hsa, if_pos hla, List.nil_append]
                rw [ih ((parse_long_answer_section lines (i + 1)).2)
                    (acc ++ (parse_long_answer_section lines (i + 1)).1),
                  ih ((parse_long_answer_section lines (i + 1)).2)
                    ((parse_long_answer_section lines (i + 1)).1),
                  List.append_assoc]
              · simp only [dispatchLoopF, dif_pos hlt, if_neg hb, if_neg hmc, if_neg htf,
                  if_neg hsa, if_neg hla]
                exact ih (i + 1) acc
    · simp only [dispatchLoopF, dif_neg hlt, List.append_nil]

theorem dispatchLoopF_tf_step (lines : List Str) (fuel i : Nat) (acc : List Question)
    (h : i < lines.length) (htf : isTFHeader (strip (lines.get ⟨i, h⟩)) = true) :
    dispatchLoopF lines (fuel + 1) i acc =
      acc ++ (parse_true_false_section lines (i + 1)).1 ++
        dispatchLoopF lines fuel (parse_true_false_section lines (i + 1)).2 [] := by
  have hb : strip (lines.get ⟨i, h⟩) ≠ [] := by
    intro h0
    rw [h0] at htf
    exact absurd htf (by decide)
  have hmc : isMCHeader (strip (lines.get ⟨i, h⟩)) = false := by
    obtain ⟨c, cs, he, hc⟩ := isTFHeader_head htf
    rw [he]
    exact isMCHeader_false_of_head cs (by omega)
  simp only [dispatchLoopF, dif_pos h, if_neg hb, hmc, Bool.false_eq_true, if_false, if_pos htf]
  rw [dispatchLoopF_append lines fuel ((parse_true_false_section lines (i + 1)).2)
      (acc ++ (parse_true_false_section lines (i + 1)).1),
    List.append_assoc]

theorem mcqLoopF_terminator (lines : List Str) (fuel i : Nat) (acc : List Question)
    (h : i < lines.length)
    (ht : (isTFHeader (strip (lines.get ⟨i, h⟩)) || isSAHeader (strip (lines.get ⟨i, h⟩)) ||
      isLAHeader (strip (lines.get ⟨i, h⟩))) = true) :
    mcqLoopF lines (fuel + 1) i acc = (acc, i) := by
  have hb : strip (lines.get ⟨i, h⟩) ≠ [] := by
    intro h0
    rw [h0] at ht
    exact absurd ht (by decide)
  simp only [mcqLoopF, dif_pos h, if_neg hb, if_pos ht]

theorem simpleLoopF_terminator (lines : List Str) (k : QKind) (isTerm : Str → Bool)
    (fuel i : Nat) (acc : List Question) (h : i < lines.length)
    (hnil : isTerm [] = false)
    (ht : isTerm (strip (lines.get ⟨i, h⟩)) = true) :
    simpleLoopF lines k isTerm (fuel + 1) i acc = (acc, i) := by
  have hb : strip (lines.get ⟨i, h⟩) ≠ [] := by
    intro h0
    rw [h0, hnil] at ht
    exact absurd ht (by decide)
  simp only [simpleLoopF, dif_pos h, if_neg hb, if_pos ht]

theorem dispatchLoopF_no_header (lines : List Str)
    (hh : ∀ j (hj : j < lines.length),
      isMCHeader (strip (lines.get ⟨j, hj⟩)) = false ∧
      isTFHeader (strip (lines.get ⟨j, hj⟩)) = false ∧
      isSAHeader (strip (lines.get ⟨j, hj⟩)) = false ∧
      isLAHeader (strip (lines.get ⟨j, hj⟩)) = false) :
    ∀ fuel i acc, dispatchLoopF lines fuel i acc = acc := by
  intro fuel
  induction fuel with
  | zero => intro i acc; rfl
  | succ f ih =>
    intro i acc
    by_cases hlt : i < lines.length
    · obtain ⟨h1, h2, h3, h4⟩ := hh i hlt
      by_cases hb : strip (lines.get ⟨i, hlt⟩) = []
      · simp only [dispatchLoopF, dif_pos hlt, if_pos hb]
        exact ih (i + 1) acc
      · simp only [dispatchLoopF, dif_pos hlt, if_neg hb, h1, h2, h3, h4,
          Bool.false_eq_true, if_false]
        exact ih (i + 1) acc
    · simp only [dispatchLoopF, dif_neg hlt]

theorem splitLines_ne_nil : ∀ s : Str, splitLines s ≠ [] := by
  intro s
  cases s with
  | nil => simp [splitLines]
  | cons c rest =>
    simp only [splitLines]
    cases splitLines rest with
    | nil => simp
    | cons l ls => by_cases h : c = '\n' <;> simp [h]

theorem collapseNewlines_append_of_noNL {a : Str} (s : Str)
    (ha : ∀ c ∈ a, c ≠ '\n') :
    collapseNewlines (a ++ s) = a ++ collapseNewlines s := by
  induction a with
  | nil => rfl
  | cons x a' ih =>
    have hx : x ≠ '\n' := ha x (List.mem_cons_self x a')
    have ha' : ∀ c ∈ a', c ≠ '\n' := fun c hc => ha c (List.mem_cons_of_mem x hc)
    show collapseNewlines (x :: (a' ++ s)) = (x :: a') ++ collapseNewlines s
    cases hsplit : a' ++ s with
    | nil =>
      have h0 := List.append_eq_nil.mp hsplit
      rw [h0.1, h0.2]
      rfl
    | cons y t =>
      rw [collapseNewlines, if_neg (by simp [hx]), ← hsplit, ih ha']
      simp

theorem collapseNewlines_of_noNL {a : Str} (ha : ∀ c ∈ a, c ≠ '\n') :
    collapseNewlines a = a := by
  have h := collapseNewlines_append_of_noNL (a := a) [] ha
  simpa [collapseNewlines] using h

theorem collapseNewlines_nl_cons {b : Str} (hb : ∀ c ∈ b, c ≠ '\n') :
    collapseNewlines ('\n' :: b) = '\n' :: b := by
  cases b with
  | nil => rfl
  | cons c b' =>
    have hc : c ≠ '\n' := hb c (List.mem_cons_self c b')
    rw [collapseNewlines, if_neg (by simp [hc]), collapseNewlines_of_noNL hb]

theorem collapseNewlines_nl_head (body : Str) :
    ∃ t, collapseNewlines ('\n' :: body) = '\n' :: t := by
  induction body with
  | nil => exact ⟨[], rfl⟩
  | cons c rest ih =>
    by_cases hc : c = '\n'
    · subst hc
      rw [collapseNewlines, if_pos ⟨rfl, rfl⟩]
      exact ih
    · exact ⟨collapseNewlines (c :: rest), by rw [collapseNewlines, if_neg (by simp [hc])]⟩

theorem splitLines_append_of_noNL {a : Str} (s : Str) (ha : ∀ c ∈ a, c ≠ '\n') :
    splitLines (a ++ '\n' :: s) = a :: splitLines s := by
  induction a with
  | nil =>
    show splitLines ('\n' :: s) = [] :: splitLines s
    rw [splitLines]
    cases hs : splitLines s with
    | nil => exact absurd hs (splitLines_ne_nil s)
    | cons l ls => simp
  | cons x a' ih =>
    have hx : x ≠ '\n' := ha x (List.mem_cons_self x a')
    have ha' : ∀ c ∈ a', c ≠ '\n' := fun c hc => ha c (List.mem_cons_of_mem x hc)
    show splitLines (x :: (a' ++ '\n' :: s)) = (x :: a') :: splitLines s
    rw [splitLines, ih ha']
    simp [hx]

theorem splitLines_of_noNL {b : Str} (hb : ∀ c ∈ b, c ≠ '\n') :
    splitLines b = [b] := by
  induction b with
  | nil => rfl
  | cons c b' ih =>
    have hc : c ≠ '\n' := hb c (List.mem_cons_self c b')
    have hb' : ∀ x ∈ b', x ≠ '\n' := fun x hx => hb x (List.mem_cons_of_mem c hx)
    rw [splitLines, ih hb']
    simp [hc]

theorem mem_collapseNewlines : ∀ t : Str, ∀ c ∈ collapseNewlines t, c ∈ t
  | [] => by simp [collapseNewlines]
  | [x] => by simp [collapseNewlines]
  | x :: y :: rest => by
    intro c hc
    by_cases h : x = '\n' ∧ y = '\n'
    · rw [collapseNewlines, if_pos h] at hc
      exact List.mem_cons_of_mem x (mem_collapseNewlines (y :: rest) c hc)
    · rw [collapseNewlines, if_neg h] at hc
      rcases List.mem_cons.mp hc with rfl | hc'
      · exact List.mem_cons_self c (y :: rest)
      · exact List.mem_cons_of_mem x (mem_collapseNewlines (y :: rest) c hc')

theorem mem_splitLines : ∀ (t : Str) (l : Str), l ∈ splitLines t → ∀ c ∈ l, c ∈ t
  | [], l, hl => by
    intro c hc
    simp only [splitLines, List.mem_singleton] at hl
    subst hl
    exact absurd hc (List.not_mem_nil c)
  | x :: rest, l, hl => by
    intro c hc
    cases hsplit : splitLines rest with
    | nil => exact absurd hsplit (splitLines_ne_nil rest)
    | cons hd tl =>
      simp only [splitLines, hsplit] at hl
      by_cases hx : x = '\n'
      · simp only [if_pos hx] at hl
        rcases List.mem_cons.mp hl with rfl | hl'
        · exact absurd hc (List.not_mem_nil c)
        · have hmem : l ∈ splitLines rest := by rw [hsplit]; exact hl'
          exact List.mem_cons_of_mem x (mem_splitLines rest l hmem c hc)
      · simp only [if_neg hx] at hl
        rcases List.mem_cons.mp hl with rfl | hl'
        · rcases List.mem_cons.mp hc with rfl | hc'
          · exact List.mem_cons_self c (rest)
          · have hmem : hd ∈ splitLines rest := by
              rw [hsplit]
              exact List.mem_cons_self hd tl
            exact List.mem_cons_of_mem x (mem_splitLines rest hd hmem c hc')
        · have hmem : l ∈ splitLines rest := by
            rw [hsplit]
            exact List.mem_cons_of_mem hd hl'
          exact List.mem_cons_of_mem x (mem_splitLines rest l hmem c hc)

theorem get_cons_tail (a b : Str) (L : List Str) {j : Nat} (h1 : 1 ≤ j)
    (hj : j < (a :: L).length) (hj' : j < (b :: L).length) :
    (a :: L).get ⟨j, hj⟩ = (b :: L).get ⟨j, hj'⟩ := by
  obtain ⟨k, rfl⟩ : ∃ k, j = k + 1 := ⟨j - 1, by omega⟩
  simp [List.get_cons_succ]

theorem scanOptionsF_tail (a b : Str) (L : List Str) :
    ∀ fuel i count acc, 1 ≤ i →
      scanOptionsF (a :: L) fuel i count acc = scanOptionsF (b :: L) fuel i count acc := by
  intro fuel
  induction fuel with
  | zero => intro i count acc _; rfl
  | succ f ih =>
    intro i count acc h1
    by_cases hlt : i < (a :: L).length
    · have hlt' : i < (b :: L).length := by simpa using hlt
      have hget : (a :: L).get ⟨i, hlt⟩ = (b :: L).get ⟨i, hlt'⟩ := get_cons_tail a b L h1 hlt hlt'
      by_cases hc : count < 4
      · by_cases hb : strip ((a :: L).get ⟨i, hlt⟩) = []
        · have hb' : strip ((b :: L).get ⟨i, hlt'⟩) = [] := by rw [← hget]; exact hb
          simp only [scanOptionsF, dif_pos hlt, dif_pos hlt', if_pos hc, if_pos hb, if_pos hb']
          exact ih (i + 1) count acc (by omega)
        · have hb' : ¬ strip ((b :: L).get ⟨i, hlt'⟩) = [] := by rw [← hget]; exact hb
          cases hm : optionMatch (strip ((a :: L).get ⟨i, hlt⟩)) with
          | some p =>
            obtain ⟨lbl, body⟩ := p
            have hm' : optionMatch (strip ((b :: L).get ⟨i, hlt'⟩)) = some (lbl, body) := by
              rw [← hget]; exact hm
            simp only [scanOptionsF, dif_pos hlt, dif_pos hlt', if_pos hc, if_neg hb,
              if_neg hb', hm, hm']
            exact ih (i + 1) (count + 1) _ (by omega)
          | none =>
            have hm' : optionMatch (strip ((b :: L).get ⟨i, hlt'⟩)) = none := by
              rw [← hget]; exact hm
            simp only [scanOptionsF, dif_pos hlt, dif_pos hlt', if_pos hc, if_neg hb,
              if_neg hb', hm, hm']
      · simp only [scanOptionsF, dif_pos hlt, dif_pos (by simpa using hlt : i < (b :: L).length),
          if_neg hc]
    · have hlt' : ¬ i < (b :: L).length := by simpa using hlt
      simp only [scanOptionsF, dif_neg hlt, dif_neg hlt']

theorem mcqLoopF_tail (a b : Str) (L : List Str) :
    ∀ fuel i acc, 1 ≤ i →
      mcqLoopF (a :: L) fuel i acc = mcqLoopF (b :: L) fuel i acc := by
  intro fuel
  induction fuel with
  | zero => intro i acc _; rfl
  | succ f ih =>
    intro i acc h1
    by_cases hlt : i < (a :: L).length
    · have hlt' : i < (b :: L).length := by simpa using hlt
      have hget : (a :: L).get ⟨i, hlt⟩ = (b :: L).get ⟨i, hlt'⟩ := get_cons_tail a b L h1 hlt hlt'
      by_cases hb : strip ((a :: L).get ⟨i, hlt⟩) = []
      · have hb' : strip ((b :: L).get ⟨i, hlt'⟩) = [] := by rw [← hget]; exact hb
        simp only [mcqLoopF, dif_pos hlt, dif_pos hlt', if_pos hb, if_pos hb']
        exact ih (i + 1) acc (by omega)
      · have hb' : ¬ strip ((b :: L).get ⟨i, hlt'⟩) = [] := by rw [← hget]; exact hb
        by_cases ht : (isTFHeader (strip ((a :: L).get ⟨i, hlt⟩)) ||
            isSAHeader (strip ((a :: L).get ⟨i, hlt⟩)) ||
            isLAHeader (strip ((a :: L).get ⟨i, hlt⟩))) = true
        · have ht' : (isTFHeader (strip ((b :: L).get ⟨i, hlt'⟩)) ||
              isSAHeader (strip ((b :: L).get ⟨i, hlt'⟩)) ||
              isLAHeader (strip ((b :: L).get ⟨i, hlt'⟩))) = true := by
            rw [← hget]; exact ht
          simp only [mcqLoopF, dif_pos hlt, dif_pos hlt', if_neg hb, if_neg hb',
            if_pos ht, if_pos ht']
        · have ht' : ¬ (isTFHeader (strip ((b :: L).get ⟨i, hlt'⟩)) ||
              isSAHeader (strip ((b :: L).get ⟨i, hlt'⟩)) ||
              isLAHeader (strip ((b :: L).get ⟨i, hlt'⟩))) = true := by
            rw [← hget]; exact ht
          cases hm : questionMatch (strip ((a :: L).get ⟨i, hlt⟩)) with
          | some p =>
            obtain ⟨num, body⟩ := p
            have hm' : questionMatch (strip ((b :: L).get ⟨i, hlt'⟩)) = some (num, body) := by
              rw [← hget]; exact hm
            simp only [mcqLoopF, dif_pos hlt, dif_pos hlt', if_neg hb, if_neg hb',
              if_neg ht, if_neg ht', hm, hm']
            simp only [List.length_cons]
            have hscan : scanOptionsF (a :: L) (L.length + 1) (i + 1) 0 [] =
                scanOptionsF (b :: L) (L.length + 1) (i + 1) 0 [] :=
              scanOptionsF_tail a b L (L.length + 1) (i + 1) 0 [] (by omega)
            rw [hscan]
            have hge := scanOptionsF_ge (b :: L) (L.length + 1) (i + 1) 0 []
            exact ih _ _ (le_trans (by omega : 1 ≤ i + 1) hge)
          | none =>
            have hm' : questionMatch (strip ((b :: L).get ⟨i, hlt'⟩)) = none := by
              rw [← hget]; exact hm
            simp only [mcqLoopF, dif_pos hlt, dif_pos hlt', if_neg hb, if_neg hb',
              if_neg ht, if_neg ht', hm, hm']
            exact ih (i + 1) acc (by omega)
    · have hlt' : ¬ i < (b :: L).length := by simpa using hlt
      simp only [mcqLoopF, dif_neg hlt, dif_neg hlt']

theorem simpleLoopF_tail (a b : Str) (L : List Str) (k : QKind) (isTerm : Str → Bool) :
    ∀ fuel i acc, 1 ≤ i →
      simpleLoopF (a :: L) k isTerm fuel i acc = simpleLoopF (b :: L) k isTerm fuel i acc := by
  intro fuel
  induction fuel with
  | zero => intro i acc _; rfl
  | succ f ih =>
    intro i acc h1
    by_cases hlt : i < (a :: L).length
    · have hlt' : i < (b :: L).length := by simpa using hlt
      have hget : (a :: L).get ⟨i, hlt⟩ = (b :: L).get ⟨i, hlt'⟩ := get_cons_tail a b L h1 hlt hlt'
      by_cases hb : strip ((a :: L).get ⟨i, hlt⟩) = []
      · have hb' : strip ((b :: L).get ⟨i, hlt'⟩) = [] := by rw [← hget]; exact hb
        simp only [simpleLoopF, dif_pos hlt, dif_pos hlt', if_pos hb, if_pos hb']
        exact ih (i + 1) acc (by omega)
      · have hb' : ¬ strip ((b :: L).get ⟨i, hlt'⟩) = [] := by rw [← hget]; exact hb
        by_cases ht : isTerm (strip ((a :: L).get ⟨i, hlt⟩)) = true
        · have ht' : isTerm (strip ((b :: L).get ⟨i, hlt'⟩)) = true := by
            rw [← hget]; exact ht
          simp only [simpleLoopF, dif_pos hlt, dif_pos hlt', if_neg hb, if_neg hb',
            if_pos ht, if_pos ht']
        · have ht' : ¬ isTerm (strip ((b :: L).get ⟨i, hlt'⟩)) = true := by
            rw [← hget]; exact ht
          cases hm : questionMatch (strip ((a :: L).get ⟨i, hlt⟩)) with
          | some p =>
            obtain ⟨num, body⟩ := p
            have hm' : questionMatch (strip ((b :: L).get ⟨i, hlt'⟩)) = some (num, body) := by
              rw [← hget]; exact hm
            simp only [simpleLoopF, dif_pos hlt, dif_pos hlt', if_neg hb, if_neg hb',
              if_neg ht, if_neg ht', hm, hm']
            exact ih (i + 1) _ (by omega)
          | none =>
            have hm' : questionMatch (strip ((b :: L).get ⟨i, hlt'⟩)) = none := by
              rw [← hget]; exact hm
            simp only [simpleLoopF, dif_pos hlt, dif_pos hlt', if_neg hb, if_neg hb',
              if_neg ht, if_neg ht', hm, hm']
            exact ih (i + 1) acc (by omega)
    · have hlt' : ¬ i < (b :: L).length := by simpa using hlt
      simp only [simpleLoopF, dif_neg hlt, dif_neg hlt']

theorem sectionStart_tail (a b : Str) (L : List Str) (s : Nat) (h1 : 1 ≤ s) :
    sectionStart (a :: L) s = sectionStart (b :: L) s := by
  unfold sectionStart
  by_cases hlt : s < (a :: L).length
  · have hlt' : s < (b :: L).length := by simpa using hlt
    have hget : (a :: L).get ⟨s, hlt⟩ = (b :: L).get ⟨s, hlt'⟩ := get_cons_tail a b L h1 hlt hlt'
    simp only [dif_pos hlt, dif_pos hlt', hget]
  · have hlt' : ¬ s < (b :: L).length := by simpa using hlt
    simp only [dif_neg hlt, dif_neg hlt']

theorem parse_mcq_section_tail (a b : Str) (L : List Str) (s : Nat) (h1 : 1 ≤ s) :
    parse_mcq_section (a :: L) s = parse_mcq_section (b :: L) s := by
  unfold parse_mcq_section
  rw [sectionStart_tail a b L s h1]
  have hs := sectionStart_ge (b :: L) s
  simp only [List.length_cons]
  exact mcqLoopF_tail a b L (L.length + 1) _ [] (by omega)

theorem parse_true_false_section_tail (a b : Str) (L : List Str) (s : Nat) (h1 : 1 ≤ s) :
    parse_true_false_section (a :: L) s = parse_true_false_section (b :: L) s := by
  unfold parse_true_false_section
  rw [sectionStart_tail a b L s h1]
  have hs := sectionStart_ge (b :: L) s
  simp only [List.length_cons]
  exact simpleLoopF_tail a b L _ _ (L.length + 1) _ [] (by omega)

theorem parse_short_answer_section_tail (a b : Str) (L : List Str) (s : Nat) (h1 : 1 ≤ s) :
    parse_short_answer_section (a :: L) s = parse_short_answer_section (b :: L) s := by
  unfold parse_short_answer_section
  rw [sectionStart_tail a b L s h1]
  have hs := sectionStart_ge (b :: L) s
  simp only [List.length_cons]
  exact simpleLoopF_tail a b L _ _ (L.length + 1) _ [] (by omega)

theorem parse_long_answer_section_tail (a b : Str) (L : List Str) (s : Nat) (h1 : 1 ≤ s) :
    parse_long_answer_section (a :: L) s = parse_long_answer_section (b :: L) s := by
  unfold parse_long_answer_section
  rw [sectionStart_tail a b L s h1]
  have hs := sectionStart_ge (b :: L) s
  simp only [List.length_cons]
  exact simpleLoopF_tail a b L _ _ (L.length + 1) _ [] (by omega)

theorem dispatchLoopF_tail (a b : Str) (L : List Str) :
    ∀ fuel i acc, 1 ≤ i →
      dispatchLoopF (a :: L) fuel i acc = dispatchLoopF (b :: L) fuel i acc := by
  intro fuel
  induction fuel with
  | zero => intro i acc _; rfl
  | succ f ih =>
    intro i acc h1
    by_cases hlt : i < (a :: L).length
    · have hlt' : i < (b :: L).length := by simpa using hlt
      have hget : (a :: L).get ⟨i, hlt⟩ = (b :: L).get ⟨i, hlt'⟩ := get_cons_tail a b L h1 hlt hlt'
      by_cases hb : strip ((a :: L).get ⟨i, hlt⟩) = []
      · have hb' : strip ((b :: L).get ⟨i, hlt'⟩) = [] := by rw [← hget]; exact hb
        simp only [dispatchLoopF, dif_pos hlt, dif_pos hlt', if_pos hb, if_pos hb']
        exact ih (i + 1) acc (by omega)
      · have hb' : ¬ strip ((b :: L).get ⟨i, hlt'⟩) = [] := by rw [← hget]; exact hb
        by_cases hmc : isMCHeader (strip ((a :: L).get ⟨i, hlt⟩)) = true
        · have hmc' : isMCHeader (strip ((b :: L).get ⟨i, hlt'⟩)) = true := by
            rw [← hget]; exact hmc
          simp only [dispatchLoopF, dif_pos hlt, dif_pos hlt', if_neg hb, if_neg hb',
            if_pos hmc, if_pos hmc']
          rw [parse_mcq_section_tail a b L (i + 1) (by omega)]
          have hge := parse_mcq_section_ge (b :: L) (i + 1)
          exact ih _ _ (by omega)
        · have hmc' : ¬ isMCHeader (strip ((b :: L).get ⟨i, hlt'⟩)) = true := by
            rw [← hget]; exact hmc
          by_cases htf : isTFHeader (strip ((a :: L).get ⟨i, hlt⟩)) = true
          · have htf' : isTFHeader (strip ((b :: L).get ⟨i, hlt'⟩)) = true := by
              rw [← hget]; exact htf
            simp only [dispatchLoopF, dif_pos hlt, dif_pos hlt', if_neg hb, if_neg hb',
              if_neg hmc, if_neg hmc', if_pos htf, if_pos htf']
            rw [parse_true_false_section_tail a b L (i + 1) (by omega)]
            have hge := parse_true_false_section_ge (b :: L) (i + 1)
            exact ih _ _ (by omega)
          · have htf' : ¬ isTFHeader (strip ((b :: L).get ⟨i, hlt'⟩)) = true := by
              rw [← hget]; exact htf
            by_cases hsa : isSAHeader (strip ((a :: L).get ⟨i, hlt⟩)) = true
            · have hsa' : isSAHeader (strip ((b :: L).get ⟨i, hlt'⟩)) = true := by
                rw [← hget]; exact hsa
              simp only [dispatchLoopF, dif_pos hlt, dif_pos hlt', if_neg hb, if_neg hb',
                if_neg hmc, if_neg hmc', if_neg htf, if_neg htf', if_pos hsa, if_pos hsa']
              rw [parse_short_answer_section_tail a b L (i + 1) (by omega)]
              have hge := parse_short_answer_section_ge (b :: L) (i + 1)
              exact ih _ _ (by omega)
            · have hsa' : ¬ isSAHeader (strip ((b :: L).get ⟨i, hlt'⟩)) = true := by
                rw [← hget]; exact hsa
              by_cases hla : isLAHeader (strip ((a :: L).get ⟨i, hlt⟩)) = true
              · have hla' : isLAHeader (strip ((b :: L).get ⟨i, hlt'⟩)) = true := by
                  rw [← hget]; exact hla
                simp only [dispatchLoopF, dif_pos hlt, dif_pos hlt', if_neg hb, if_neg hb',
                  if_neg hmc, if_neg hmc', if_neg htf, if_neg htf', if_neg hsa, if_neg hsa',
                  if_pos hla, if_pos hla']
                rw [parse_long_answer_section_tail a b L (i + 1) (by omega)]
                have hge := parse_long_answer_section_ge (b :: L) (i + 1)
                exact ih _ _ (by omega)
              · have hla' : ¬ isLAHeader (strip ((b :: L).get ⟨i, hlt'⟩)) = true := by
                  rw [← hget]; exact hla
                simp only [dispatchLoopF, dif_pos hlt, dif_pos hlt', if_neg hb, if_neg hb',
                  if_neg hmc, if_neg hmc', if_neg htf, if_neg htf', if_neg hsa, if_neg hsa',
                  if_neg hla, if_neg hla']
                exact ih (i + 1) acc (by omega)
    · have hlt' : ¬ i < (b :: L).length := by simpa using hlt
      simp only [dispatchLoopF, dif_neg hlt, dif_neg hlt']

theorem dispatchLoopF_mc_step (lines : List Str) (fuel i : Nat) (acc : List Question)
    (h : i < lines.length) (hmc : isMCHeader (strip (lines.get ⟨i, h⟩)) = true) :
    dispatchLoopF lines (fuel + 1) i acc =
      acc ++ (parse_mcq_section lines (i + 1)).1 ++
        dispatchLoopF lines fuel (parse_mcq_section lines (i + 1)).2 [] := by
  have hb : strip (lines.get ⟨i, h⟩) ≠ [] := by
    intro h0
    rw [h0] at hmc
    exact absurd hmc (by decide)
  simp only [dispatchLoopF, dif_pos h, if_neg hb, if_pos hmc]
  rw [dispatchLoopF_append lines fuel ((parse_mcq_section lines (i + 1)).2)
      (acc ++ (parse_mcq_section lines (i + 1)).1),
    List.append_assoc]

theorem parse_questionnaire_header_swap (h1 h2 : Str)
    (hn1 : ∀ c ∈ h1, c ≠ '\n') (hn2 : ∀ c ∈ h2, c ≠ '\n')
    (hs1 : strip h1 = h1) (hs2 : strip h2 = h2)
    (hm1 : isMCHeader h1 = true) (hm2 : isMCHeader h2 = true) (body : Str) :
    parse_questionnaire (h1 ++ '\n' :: body) = parse_questionnaire (h2 ++ '\n' :: body) := by
  obtain ⟨t, hct⟩ := collapseNewlines_nl_head body
  have hlines : ∀ hh : Str, (∀ c ∈ hh, c ≠ '\n') → strip hh = hh →
      normalizeLines (hh ++ '\n' :: body) = hh :: (splitLines t).map strip := by
    intro hh hn hs
    unfold normalizeLines
    rw [collapseNewlines_append_of_noNL _ hn, hct, splitLines_append_of_noNL t hn]
    simp [hs]
  set L := (splitLines t).map strip with hL
  have e1 : parse_questionnaire (h1 ++ '\n' :: body) =
      dispatchLoopF (h1 :: L) (L.length + 1) 0 [] := by
    unfold parse_questionnaire
    rw [hlines h1 hn1 hs1]
    simp only [List.length_cons]
  have e2 : parse_questionnaire (h2 ++ '\n' :: body) =
      dispatchLoopF (h2 :: L) (L.length + 1) 0 [] := by
    unfold parse_questionnaire
    rw [hlines h2 hn2 hs2]
    simp only [List.length_cons]
  rw [e1, e2]
  have hlt1 : (0 : Nat) < (h1 :: L).length := by simp
  have hlt2 : (0 : Nat) < (h2 :: L).length := by simp
  rw [dispatchLoopF_mc_step (h1 :: L) L.length 0 [] hlt1
      (by show isMCHeader (strip h1) = true; rw [hs1]; exact hm1),
    dispatchLoopF_mc_step (h2 :: L) L.length 0 [] hlt2
      (by show isMCHeader (strip h2) = true; rw [hs2]; exact hm2),
    parse_mcq_section_tail h1 h2 L 1 (by omega)]
  have hge := parse_mcq_section_ge (h2 :: L) 1
  rw [dispatchLoopF_tail h1 h2 L L.length ((parse_mcq_section (h2 :: L) 1).2) []
      (le_trans (by omega : 1 ≤ 1) hge)]

theorem takeWhile_append_all {p : Char → Bool} {xs : Str} (r : Str)
    (hxs : ∀ x ∈ xs, p x = true) {d : Char} (hd : p d = false) :
    List.takeWhile p (xs ++ d :: r) = xs := by
  induction xs with
  | nil => simp [List.takeWhile_cons, hd]
  | cons x xs' ih =>
    have hx : p x = true := hxs x (List.mem_cons_self x xs')
    have h' : ∀ y ∈ xs', p y = true := fun y hy => hxs y (List.mem_cons_of_mem x hy)
    simp [List.takeWhile_cons, hx, ih h']

theorem delimSplit_single (d c : Char) (cs : Str)
    (hd : isDelim d = true) (hc : isDelim c = false) :
    delimSplit (d :: c :: cs) = some (c :: cs) := by
  have h1 : List.takeWhile isDelim (d :: c :: cs) = [d] := by
    simp [List.takeWhile_cons, hd, hc]
  simp only [delimSplit, h1, List.length_singleton]
  rw [if_neg (by omega), if_pos (by simp only [List.length_cons]; omega)]
  simp

theorem questionMatch_of_parts (num : Str) (d c : Char) (cs : Str)
    (hnum : num ≠ []) (hdig : ∀ x ∈ num, isDigit x = true)
    (hd : isDelim d = true) (hdd : isDigit d = false)
    (hc : isDelim c = false) :
    questionMatch (num ++ d :: c :: cs) = some (num, c :: cs) := by
  have htw : List.takeWhile isDigit (num ++ d :: c :: cs) = num :=
    takeWhile_append_all (c :: cs) hdig hdd
  simp only [questionMatch, htw, List.drop_left]
  rw [if_neg hnum, delimSplit_single d c cs hd hc]

theorem optionMatch_of_parts (lbl d c : Char) (cs : Str)
    (hlbl : isOptLabelChar lbl = true)
    (hd : isDelim d = true) (hc : isDelim c = false) :
    optionMatch (lbl :: d :: c :: cs) = some (lbl, c :: cs) := by
  simp only [optionMatch, if_pos hlbl, delimSplit_single d c cs hd hc]

theorem sectionStart_of_ne (lines : List Str) (s : Nat) (h : s < lines.length)
    (hne : strip (lines.get ⟨s, h⟩) ≠ []) : sectionStart lines s = s := by
  unfold sectionStart
  rw [dif_pos h, if_neg hne]

theorem scanOptionsF_option_step (lines : List Str) (fuel i count : Nat) (acc : List MCOption)
    (h : i < lines.length) (hc : count < 4) (lbl : Char) (body : Str)
    (hm : optionMatch (strip (lines.get ⟨i, h⟩)) = some (lbl, body)) :
    scanOptionsF lines (fuel + 1) i count acc =
      scanOptionsF lines fuel (i + 1) (count + 1)
        (acc ++ [⟨[lbl], lbl :: '.' :: ' ' :: strip body⟩]) := by
  have hb : strip (lines.get ⟨i, h⟩) ≠ [] := by
    intro h0
    obtain ⟨c, cs, he, _⟩ := optionMatch_shape hm
    rw [h0] at he
    exact List.noConfusion he
  simp only [scanOptionsF, dif_pos h, if_pos hc, if_neg hb, hm]

theorem scanOptionsF_stop_step (lines : List Str) (fuel i count : Nat) (acc : List MCOption)
    (h : i < lines.length) (hc : count < 4)
    (hb : strip (lines.get ⟨i, h⟩) ≠ [])
    (hm : optionMatch (strip (lines.get ⟨i, h⟩)) = none) :
    scanOptionsF lines (fuel + 1) i count acc = (acc, i) := by
  simp only [scanOptionsF, dif_pos h, if_pos hc, if_neg hb, hm]

theorem scanOptionsF_end (lines : List Str) (fuel i count : Nat) (acc : List MCOption)
    (h : ¬ i < lines.length) :
    scanOptionsF lines fuel i count acc = (acc, i) := by
  cases fuel with
  | zero => rfl
  | succ f => simp only [scanOptionsF, dif_neg h]

theorem mcqLoopF_question_step (lines : List Str) (fuel i : Nat) (acc : List Question)
    (h : i < lines.length) (num body : Str)
    (hm : questionMatch (strip (lines.get ⟨i, h⟩)) = some (num, body))
    (ht : (isTFHeader (strip (lines.get ⟨i, h⟩)) || isSAHeader (strip (lines.get ⟨i, h⟩)) ||
      isLAHeader (strip (lines.get ⟨i, h⟩))) = false) :
    mcqLoopF lines (fuel + 1) i acc =
      mcqLoopF lines fuel (scanOptionsF lines lines.length (i + 1) 0 []).2
        (acc ++ [⟨num, num ++ ('.' :: ' ' :: strip body), QKind.mcq,
          (scanOptionsF lines lines.length (i + 1) 0 []).1⟩]) := by
  have hb : strip (lines.get ⟨i, h⟩) ≠ [] := by
    intro h0
    obtain ⟨c, cs, he, _⟩ := questionMatch_shape hm
    rw [h0] at he
    exact List.noConfusion he
  simp only [mcqLoopF, dif_pos h, if_neg hb, ht, Bool.false_eq_true, if_false, hm]

theorem mcqLoopF_end (lines : List Str) (fuel i : Nat) (acc : List Question)
    (h : ¬ i < lines.length) :
    mcqLoopF lines fuel i acc = (acc, i) := by
  cases fuel with
  | zero => rfl
  | succ f => simp only [mcqLoopF, dif_neg h]

theorem strip_of_mem_normalizeLines {text : Str} {l : Str}
    (h : l ∈ normalizeLines text) : strip l = l := by
  obtain ⟨x, _, rfl⟩ := List.mem_map.mp h
  exact strip_idem x

theorem parse_questionnaire_no_header (text : Str)
    (hh : ∀ l ∈ normalizeLines text,
      isMCHeader l = false ∧ isTFHeader l = false ∧
      isSAHeader l = false ∧ isLAHeader l = false) :
    parse_questionnaire text = [] := by
  unfold parse_questionnaire
  apply dispatchLoopF_no_header
  intro j hj
  have hmem : (normalizeLines text).get ⟨j, hj⟩ ∈ normalizeLines text :=
    List.get_mem _ _ _
  rw [strip_of_mem_normalizeLines hmem]
  exact hh _ hmem

theorem normalizeLines_all_space {text : Str} (hsp : ∀ c ∈ text, isSpace c = true) :
    ∀ l ∈ normalizeLines text, l = [] := by
  intro l hl
  obtain ⟨x, hx, rfl⟩ := List.mem_map.mp hl
  apply strip_of_all_space
  intro c hc
  exact hsp c (mem_collapseNewlines text c (mem_splitLines _ x hx c hc))

theorem parse_questionnaire_all_space (text : Str)
    (hsp : ∀ c ∈ text, isSpace c = true) :
    parse_questionnaire text = [] := by
  apply parse_questionnaire_no_header
  intro l hl
  rw [normalizeLines_all_space hsp l hl]
  exact ⟨rfl, rfl, rfl, rfl⟩

/-- C2 counterexample: the input `"a\n\nb"` has three original lines
(`"a"`, `""`, `"b"`), but the normalization step collapses the newline run
first, so the blank middle line is deleted and only two lines remain — the
blank line is not retained as an empty string at its index, contradicting the
claim as stated. -/
theorem c2_counterexample :
    normalizeLines ('a' :: '\n' :: '\n' :: ['b']) = [['a'], ['b']] ∧
    normalizeLines ('a' :: '\n' :: '\n' :: ['b']) ≠ [['a'], [], ['b']] := by
  constructor
  · decide
  · decide

/-- C2 amended: runs of consecutive line breaks are collapsed to a single
break before splitting, so an empty line that arises from consecutive line
breaks is deleted rather than retained; a line consisting of (non-linebreak)
whitespace only, however, is retained as an empty string at its index in the
normalized sequence. -/
theorem c2_amended (a w b : Str)
    (hna : ∀ c ∈ a, c ≠ '\n') (hnw : ∀ c ∈ w, c ≠ '\n') (hnb : ∀ c ∈ b, c ≠ '\n')
    (hw : w ≠ []) (hsp : ∀ c ∈ w, isSpace c = true) :
    normalizeLines (a ++ '\n' :: (w ++ '\n' :: b)) = [strip a, [], strip b] := by
  unfold normalizeLines
  have hc1 : collapseNewlines (a ++ '\n' :: (w ++ '\n' :: b)) =
      a ++ '\n' :: (w ++ '\n' :: b) := by
    rw [collapseNewlines_append_of_noNL _ hna]
    congr 1
    cases w with
    | nil => exact absurd rfl hw
    | cons wc w' =>
      have hwc : wc ≠ '\n' := hnw wc (List.mem_cons_self wc w')
      show collapseNewlines ('\n' :: (wc :: w' ++ '\n' :: b)) = _
      rw [show ('\n' :: (wc :: w' ++ '\n' :: b)) = ('\n' :: wc :: (w' ++ '\n' :: b)) by simp,
        collapseNewlines, if_neg (by simp [hwc])]
      show '\n' :: collapseNewlines ((wc :: w') ++ '\n' :: b) = _
      rw [collapseNewlines_append_of_noNL _ hnw, collapseNewlines_nl_cons hnb]
      simp
  rw [hc1, splitLines_append_of_noNL _ hna, splitLines_append_of_noNL _ hnw,
    splitLines_of_noNL hnb]
  simp [strip_of_all_space hsp]

/-- C2 witness: the input `"a\n \nb"` (whitespace-only middle line) normalizes
to three lines with the middle one retained as the empty string. -/
theorem c2_amended_witness :
    (∀ c ∈ [' '], isSpace c = true) ∧
    normalizeLines (['a'] ++ '\n' :: ([' '] ++ '\n' :: ['b'])) =
      [strip ['a'], [], strip ['b']] :=
  ⟨by decide,
    c2_amended ['a'] [' '] ['b'] (by decide) (by decide) (by decide) (by decide) (by decide)⟩

/-- C3: every question produced by `parse_questionnaire` has at most 4 options
when its kind is MCQ, and an empty option list when its kind is TRUE_FALSE,
SHORT_ANSWER or LONG_ANSWER. -/
theorem c3_options_invariant :
    ∀ (text : Str) (q : Question), q ∈ parse_questionnaire text →
      (q.kind = QKind.mcq → q.options.length ≤ 4) ∧
      ((q.kind = QKind.true_false ∨ q.kind = QKind.short_answer ∨
        q.kind = QKind.long_answer) → q.options = []) := by
  intro text q hq
  obtain ⟨h1, h2, _, _⟩ := parse_questionnaire_QOK text q hq
  refine ⟨h1, ?_⟩
  intro hk
  apply h2
  rcases hk with h | h | h <;> simp [h]

/-- C3 witness: the invariant instantiated at a concrete parsed true/false
question. -/
theorem c3_options_invariant_witness :
    (⟨['1'], "1. A".toList, QKind.true_false, []⟩ : Question) ∈
      parse_questionnaire "True or False\n1. A".toList ∧
    (((⟨['1'], "1. A".toList, QKind.true_false, []⟩ : Question).kind = QKind.mcq →
      (⟨['1'], "1. A".toList, QKind.true_false, []⟩ : Question).options.length ≤ 4) ∧
     (((⟨['1'], "1. A".toList, QKind.true_false, []⟩ : Question).kind = QKind.true_false ∨
       (⟨['1'], "1. A".toList, QKind.true_false, []⟩ : Question).kind = QKind.short_answer ∨
       (⟨['1'], "1. A".toList, QKind.true_false, []⟩ : Question).kind = QKind.long_answer) →
      (⟨['1'], "1. A".toList, QKind.true_false, []⟩ : Question).options = [])) :=
  ⟨by decide, c3_options_invariant "True or False\n1. A".toList _ (by decide)⟩

/-- C6: every section parser, on reaching a line matching a header of one of
its terminator kinds, stops without consuming that line: it returns the
accumulated questions and the index of that very line, for any accumulator
and any remaining fuel. -/
theorem c6_terminator_not_consumed :
    (∀ (lines : List Str) (fuel i : Nat) (acc : List Question) (h : i < lines.length),
      (isTFHeader (strip (lines.get ⟨i, h⟩)) || isSAHeader (strip (lines.get ⟨i, h⟩)) ||
        isLAHeader (strip (lines.get ⟨i, h⟩))) = true →
      mcqLoopF lines (fuel + 1) i acc = (acc, i)) ∧
    (∀ (lines : List Str) (fuel i : Nat) (acc : List Question) (h : i < lines.length),
      tfTerm (strip (lines.get ⟨i, h⟩)) = true →
      simpleLoopF lines QKind.true_false tfTerm (fuel + 1) i acc = (acc, i)) ∧
    (∀ (lines : List Str) (fuel i : Nat) (acc : List Question) (h : i < lines.length),
      saTerm (strip (lines.get ⟨i, h⟩)) = true →
      simpleLoopF lines QKind.short_answer saTerm (fuel + 1) i acc = (acc, i)) ∧
    (∀ (lines : List Str) (fuel i : Nat) (acc : List Question) (h : i < lines.length),
      laTerm (strip (lines.get ⟨i, h⟩)) = true →
      simpleLoopF lines QKind.long_answer laTerm (fuel + 1) i acc = (acc, i)) :=
  ⟨fun lines fuel i acc h ht => mcqLoopF_terminator lines fuel i acc h ht,
   fun lines fuel i acc h ht =>
     simpleLoopF_terminator lines QKind.true_false tfTerm fuel i acc h (by decide) ht,
   fun lines fuel i acc h ht =>
     simpleLoopF_terminator lines QKind.short_answer saTerm fuel i acc h (by decide) ht,
   fun lines fuel i acc h ht =>
     simpleLoopF_terminator lines QKind.long_answer laTerm fuel i acc h (by decide) ht⟩

/-- C6 witness: concrete instances — each section parser, started on a line
holding another kind's header, returns immediately with the accumulator and
that line's index. -/
theorem c6_terminator_not_consumed_witness :
    (isTFHeader (strip "True or False".toList) ||
      isSAHeader (strip "True or False".toList) ||
      isLAHeader (strip "True or False".toList)) = true ∧
    mcqLoopF ["True or False".toList] 1 0 [] = ([], 0) ∧
    simpleLoopF ["Short Answer".toList] QKind.true_false tfTerm 1 0 [] = ([], 0) ∧
    simpleLoopF ["Multiple Choice".toList] QKind.short_answer saTerm 1 0 [] = ([], 0) ∧
    simpleLoopF ["True or False".toList] QKind.long_answer laTerm 1 0 [] = ([], 0) :=
  ⟨by decide,
   c6_terminator_not_consumed.1 ["True or False".toList] 0 0 [] (by decide) (by decide),
   c6_terminator_not_consumed.2.1 ["Short Answer".toList] 0 0 [] (by decide) (by decide),
   c6_terminator_not_consumed.2.2.1 ["Multiple Choice".toList] 0 0 [] (by decide) (by decide),
   c6_terminator_not_consumed.2.2.2 ["True or False".toList] 0 0 [] (by decide) (by decide)⟩

/-- C8: parsing the extraction-failure sentinel as ordinary text yields zero
questions, and it does so through the ordinary header-free-prose path: none of
its normalized lines matches any section header, so the general no-header
lemma applies as for any other prose input. -/
theorem c8_sentinel_ordinary_text :
    parse_questionnaire extraction_failure_sentinel = [] ∧
    (∀ l ∈ normalizeLines extraction_failure_sentinel,
      isMCHeader l = false ∧ isTFHeader l = false ∧
      isSAHeader l = false ∧ isLAHeader l = false) := by
  constructor
  · exact parse_questionnaire_no_header _ (by decide)
  · decide

/-- C9: empty input yields the empty question list; so does any
whitespace-only input and any input none of whose normalized lines matches a
section header — the dispatcher scans to the end without emitting anything. -/
theorem c9_empty_and_headerless :
    parse_questionnaire [] = [] ∧
    (∀ text : Str, (∀ c ∈ text, isSpace c = true) → parse_questionnaire text = []) ∧
    (∀ text : Str,
      (∀ l ∈ normalizeLines text,
        isMCHeader l = false ∧ isTFHeader l = false ∧
        isSAHeader l = false ∧ isLAHeader l = false) →
      parse_questionnaire text = []) :=
  ⟨by decide,
   fun text h => parse_questionnaire_all_space text h,
   fun text h => parse_questionnaire_no_header text h⟩

/-- C9 witness: a whitespace-only input and a header-free prose input both
parse to the empty list. -/
theorem c9_empty_and_headerless_witness :
    (∀ c ∈ (' ' :: '\n' :: [' ']), isSpace c = true) ∧
    parse_questionnaire (' ' :: '\n' :: [' ']) = [] ∧
    parse_questionnaire "just some prose\nwith no headers".toList = [] :=
  ⟨by decide,
   c9_empty_and_headerless.2.1 (' ' :: '\n' :: [' ']) (by decide),
   c9_empty_and_headerless.2.2 "just some prose\nwith no headers".toList (by decide)⟩

/-- C10: every section parser called with a start index between 0 and the
line-sequence length returns a resume index between the start index and the
length; and the dispatcher loop is fuel-stable — any fuel of at least
`lines.length - i` computes the same result, so the whole parse terminates on
every finite input with the fuel `parse_questionnaire` supplies. -/
theorem c10_resume_bounds_and_termination :
    (∀ (lines : List Str) (s : Nat), s ≤ lines.length →
      s ≤ (parse_mcq_section lines s).2 ∧ (parse_mcq_section lines s).2 ≤ lines.length) ∧
    (∀ (lines : List Str) (s : Nat), s ≤ lines.length →
      s ≤ (parse_true_false_section lines s).2 ∧
        (parse_true_false_section lines s).2 ≤ lines.length) ∧
    (∀ (lines : List Str) (s : Nat), s ≤ lines.length →
      s ≤ (parse_short_answer_section lines s).2 ∧
        (parse_short_answer_section lines s).2 ≤ lines.length) ∧
    (∀ (lines : List Str) (s : Nat), s ≤ lines.length →
      s ≤ (parse_long_answer_section lines s).2 ∧
        (parse_long_answer_section lines s).2 ≤ lines.length) ∧
    (∀ (lines : List Str) (extra fuel i : Nat) (acc : List Question),
      lines.length - i ≤ fuel →
      dispatchLoopF lines (fuel + extra) i acc = dispatchLoopF lines fuel i acc) :=
  ⟨fun lines s h => ⟨parse_mcq_section_ge lines s, parse_mcq_section_le lines s h⟩,
   fun lines s h => ⟨parse_true_false_section_ge lines s, parse_true_false_section_le lines s h⟩,
   fun lines s h => ⟨parse_short_answer_section_ge lines s,
     parse_short_answer_section_le lines s h⟩,
   fun lines s h => ⟨parse_long_answer_section_ge lines s, parse_long_answer_section_le lines s h⟩,
   fun lines extra fuel i acc h => dispatchLoopF_fuel_add lines extra fuel i acc h⟩

/-- C10 witness: the bounds and the fuel stability instantiated on a concrete
two-line input. -/
theorem c10_resume_bounds_and_termination_witness :
    ((0 : Nat) ≤ (["1. A".toList, "2. B".toList] : List Str).length) ∧
    (0 ≤ (parse_mcq_section ["1. A".toList, "2. B".toList] 0).2 ∧
      (parse_mcq_section ["1. A".toList, "2. B".toList] 0).2 ≤
        (["1. A".toList, "2. B".toList] : List Str).length) ∧
    (0 ≤ (parse_true_false_section ["1. A".toList, "2. B".toList] 0).2 ∧
      (parse_true_false_section ["1. A".toList, "2. B".toList] 0).2 ≤
        (["1. A".toList, "2. B".toList] : List Str).length) ∧
    (0 ≤ (parse_short_answer_section ["1. A".toList, "2. B".toList] 0).2 ∧
      (parse_short_answer_section ["1. A".toList, "2. B".toList] 0).2 ≤
        (["1. A".toList, "2. B".toList] : List Str).length) ∧
    (0 ≤ (parse_long_answer_section ["1. A".toList, "2. B".toList] 0).2 ∧
      (parse_long_answer_section ["1. A".toList, "2. B".toList] 0).2 ≤
        (["1. A".toList, "2. B".toList] : List Str).length) ∧
    dispatchLoopF ["1. A".toList, "2. B".toList] (2 + 3) 0 [] =
      dispatchLoopF ["1. A".toList, "2. B".toList] 2 0 [] :=
  ⟨by decide,
   c10_resume_bounds_and_termination.1 ["1. A".toList, "2. B".toList] 0 (by decide),
   c10_resume_bounds_and_termination.2.1 ["1. A".toList, "2. B".toList] 0 (by decide),
   c10_resume_bounds_and_termination.2.2.1 ["1. A".toList, "2. B".toList] 0 (by decide),
   c10_resume_bounds_and_termination.2.2.2.1 ["1. A".toList, "2. B".toList] 0 (by decide),
   c10_resume_bounds_and_termination.2.2.2.2 ["1. A".toList, "2. B".toList] 3 2 0 [] (by decide)⟩

/-- C4: the dispatcher threads an append-only accumulator (every call equals
the accumulator followed by the questions found from the current position), a
dispatched header contributes exactly its section's questions followed by the
rest of the scan, and a concrete input with two True/False blocks split by a
Short Answer block yields all questions of both blocks in encounter order,
none counted twice. -/
theorem c4_concatenation_in_encounter_order :
    (∀ (lines : List Str) (fuel i : Nat) (acc : List Question),
      dispatchLoopF lines fuel i acc = acc ++ dispatchLoopF lines fuel i []) ∧
    (∀ (lines : List Str) (fuel i : Nat) (acc : List Question) (h : i < lines.length),
      isTFHeader (strip (lines.get ⟨i, h⟩)) = true →
      dispatchLoopF lines (fuel + 1) i acc =
        acc ++ (parse_true_false_section lines (i + 1)).1 ++
          dispatchLoopF lines fuel (parse_true_false_section lines (i + 1)).2 []) ∧
    (∀ (lines : List Str) (fuel i : Nat) (acc : List Question) (h : i < lines.length),
      isMCHeader (strip (lines.get ⟨i, h⟩)) = true →
      dispatchLoopF lines (fuel + 1) i acc =
        acc ++ (parse_mcq_section lines (i + 1)).1 ++
          dispatchLoopF lines fuel (parse_mcq_section lines (i + 1)).2 []) ∧
    parse_questionnaire
        "True or False:\n1. Cats purr.\nShort Answer:\n1. Why?\nTrue or False:\n2. Dogs bark.".toList =
      [⟨['1'], "1. Cats purr.".toList, QKind.true_false, []⟩,
       ⟨['1'], "1. Why?".toList, QKind.short_answer, []⟩,
       ⟨['2'], "2. Dogs bark.".toList, QKind.true_false, []⟩] :=
  ⟨fun lines fuel i acc => dispatchLoopF_append lines fuel i acc,
   fun lines fuel i acc h htf => dispatchLoopF_tf_step lines fuel i acc h htf,
   fun lines fuel i acc h hmc => dispatchLoopF_mc_step lines fuel i acc h hmc,
   by decide⟩

/-- C4 witness: the dispatch-step conjuncts instantiated on concrete inputs
headed by a True/False header and a Multiple Choice header. -/
theorem c4_concatenation_in_encounter_order_witness :
    isTFHeader (strip "True or False".toList) = true ∧
    dispatchLoopF ["True or False".toList, "1. A".toList] 2 0 [] =
      [] ++ (parse_true_false_section ["True or False".toList, "1. A".toList] 1).1 ++
        dispatchLoopF ["True or False".toList, "1. A".toList] 1
          (parse_true_false_section ["True or False".toList, "1. A".toList] 1).2 [] ∧
    dispatchLoopF ["Multiple Choice".toList, "1. A".toList] 2 0 [] =
      [] ++ (parse_mcq_section ["Multiple Choice".toList, "1. A".toList] 1).1 ++
        dispatchLoopF ["Multiple Choice".toList, "1. A".toList] 1
          (parse_mcq_section ["Multiple Choice".toList, "1. A".toList] 1).2 [] :=
  ⟨by decide,
   c4_concatenation_in_encounter_order.2.1 ["True or False".toList, "1. A".toList] 1 0 []
     (by decide) (by decide),
   c4_concatenation_in_encounter_order.2.2.1 ["Multiple Choice".toList, "1. A".toList] 1 0 []
     (by decide) (by decide)⟩

/-- C5: header matching is a case- and whitespace-insensitive prefix test —
`"MULTIPLE CHOICE"`, `"multiple choice"` and `"Multiple   Choice"` followed by
anything all match the MCQ header, and for every section body the full parses
of the inputs headed by those three spellings (and by one with trailing extra
words, `"Multiple Choice Questions:"`) are identical. -/
theorem c5_header_matching_insensitive :
    (∀ t : Str, isMCHeader ("MULTIPLE CHOICE".toList ++ t) = true) ∧
    (∀ t : Str, isMCHeader ("multiple choice".toList ++ t) = true) ∧
    (∀ t : Str, isMCHeader ("Multiple   Choice".toList ++ t) = true) ∧
    (∀ body : Str,
      parse_questionnaire ("MULTIPLE CHOICE".toList ++ '\n' :: body) =
        parse_questionnaire ("multiple choice".toList ++ '\n' :: body) ∧
      parse_questionnaire ("MULTIPLE CHOICE".toList ++ '\n' :: body) =
        parse_questionnaire ("Multiple   Choice".toList ++ '\n' :: body) ∧
      parse_questionnaire ("MULTIPLE CHOICE".toList ++ '\n' :: body) =
        parse_questionnaire ("Multiple Choice Questions:".toList ++ '\n' :: body)) := by
  refine ⟨fun t => rfl, fun t => rfl, fun t => rfl, fun body => ⟨?_, ?_, ?_⟩⟩
  · exact parse_questionnaire_header_swap "MULTIPLE CHOICE".toList "multiple choice".toList
      (by decide) (by decide) (by decide) (by decide) (by decide) (by decide) body
  · exact parse_questionnaire_header_swap "MULTIPLE CHOICE".toList "Multiple   Choice".toList
      (by decide) (by decide) (by decide) (by decide) (by decide) (by decide) body
  · exact parse_questionnaire_header_swap "MULTIPLE CHOICE".toList
      "Multiple Choice Questions:".toList
      (by decide) (by decide) (by decide) (by decide) (by decide) (by decide) body

/-- C7: every parsed question's text is its number token, a literal `". "`,
and a whitespace-stripped body (options likewise); and the question and option
patterns capture the same token and the same body regardless of which
delimiter — `'.'`, `')'` or a space — follows the token. -/
theorem c7_prompt_reassembly :
    (∀ (text : Str) (q : Question), q ∈ parse_questionnaire text →
      ((∃ b2, q.text = q.number ++ '.' :: ' ' :: b2 ∧ strip b2 = b2) ∧
       ∀ o ∈ q.options, ∃ b2, o.text = o.letter ++ '.' :: ' ' :: b2 ∧ strip b2 = b2)) ∧
    (∀ (num : Str) (d c : Char) (cs : Str),
      (d = '.' ∨ d = ')' ∨ d = ' ') → num ≠ [] → (∀ x ∈ num, isDigit x = true) →
      isDelim c = false →
      questionMatch (num ++ d :: c :: cs) = some (num, c :: cs)) ∧
    (∀ (lbl d c : Char) (cs : Str),
      (d = '.' ∨ d = ')' ∨ d = ' ') → isOptLabelChar lbl = true → isDelim c = false →
      optionMatch (lbl :: d :: c :: cs) = some (lbl, c :: cs)) := by
  refine ⟨?_, ?_, ?_⟩
  · intro text q hq
    obtain ⟨_, _, h3, h4⟩ := parse_questionnaire_QOK text q hq
    exact ⟨h3, h4⟩
  · intro num d c cs hd hnum hdig hc
    have hd1 : isDelim d = true := by rcases hd with rfl | rfl | rfl <;> decide
    have hd2 : isDigit d = false := by rcases hd with rfl | rfl | rfl <;> decide
    exact questionMatch_of_parts num d c cs hnum hdig hd1 hd2 hc
  · intro lbl d c cs hd hlbl hc
    have hd1 : isDelim d = true := by rcases hd with rfl | rfl | rfl <;> decide
    exact optionMatch_of_parts lbl d c cs hlbl hd1 hc

/-- C7 witness: the reassembly property at a concrete parsed question, and the
delimiter-independence of the patterns at `')'` and `' '`. -/
theorem c7_prompt_reassembly_witness :
    (⟨['1'], "1. A".toList, QKind.true_false, []⟩ : Question) ∈
      parse_questionnaire "True or False\n1) A".toList ∧
    ((∃ b2, ("1. A".toList : Str) = ['1'] ++ '.' :: ' ' :: b2 ∧ strip b2 = b2) ∧
      ∀ o ∈ ([] : List MCOption), ∃ b2, o.text = o.letter ++ '.' :: ' ' :: b2 ∧ strip b2 = b2) ∧
    questionMatch (['1'] ++ ')' :: 'A' :: []) = some (['1'], ['A']) ∧
    optionMatch ('a' :: ' ' :: 'x' :: []) = some ('a', ['x']) :=
  ⟨by decide,
   c7_prompt_reassembly.1 "True or False\n1) A".toList
     ⟨['1'], "1. A".toList, QKind.true_false, []⟩ (by decide),
   c7_prompt_reassembly.2.1 ['1'] ')' 'A' [] (by exact Or.inr (Or.inl rfl)) (by decide)
     (by decide) (by decide),
   c7_prompt_reassembly.2.2 'a' ' ' 'x' [] (by exact Or.inr (Or.inr rfl)) (by decide) (by decide)⟩

/-- C1 counterexample: the new question line `"2. Next"` matches the question
pattern (leading integer token, delimiter, text), yet the MCQ section parser
does not resume at it — because `'2'` is also in the option-label class
`[a-d1-4]`, the option scan consumes the line as a third option, so the
section yields a single question with three options and no second question,
contradicting the claim as stated. -/
theorem c1_counterexample :
    questionMatch (strip "2. Next".toList) = some ("2".toList, "Next".toList) ∧
    parse_mcq_section ["Multiple Choice".toList, "1. Q".toList, "a. x".toList,
        "b. y".toList, "2. Next".toList] 1 =
      ([⟨['1'], "1. Q".toList, QKind.mcq,
          [⟨['a'], "a. x".toList⟩, ⟨['b'], "b. y".toList⟩, ⟨['2'], "2. Next".toList⟩]⟩], 5) := by
  constructor
  · decide
  · decide

/-- C1 amended: for an MCQ section consisting of a header, a question line,
exactly 2 option-pattern lines, and then a new question line that does NOT
itself match the option pattern (that is, its leading token is not a single
`a`–`d`/`1`–`4` character followed by a delimiter), the MCQ section parser
returns the first question with exactly 2 options, resumes at the new question
line without error, and emits it as its own question.  (When the new question
line also matches the option pattern — e.g. a number `1`–`4` — it is instead
consumed as a third option; see the counterexample.) -/
theorem c1_amended_two_options (hdr q o1 o2 q2 : Str) (n1 b1 : Str) (l1 : Char) (t1 : Str)
    (l2 : Char) (t2 : Str) (n2 b2 : Str)
    (_hhdr : isMCHeader (strip hdr) = true)
    (hq : questionMatch (strip q) = some (n1, b1))
    (ho1 : optionMatch (strip o1) = some (l1, t1))
    (ho2 : optionMatch (strip o2) = some (l2, t2))
    (hq2 : questionMatch (strip q2) = some (n2, b2))
    (hno : optionMatch (strip q2) = none) :
    parse_mcq_section [hdr, q, o1, o2, q2] 1 =
      ([⟨n1, n1 ++ ('.' :: ' ' :: strip b1), QKind.mcq,
          [⟨[l1], l1 :: '.' :: ' ' :: strip t1⟩, ⟨[l2], l2 :: '.' :: ' ' :: strip t2⟩]⟩,
        ⟨n2, n2 ++ ('.' :: ' ' :: strip b2), QKind.mcq, []⟩], 5) := by
  obtain ⟨cq, csq, heq, hdq⟩ := questionMatch_shape hq
  obtain ⟨c2, cs2, he2, hd2⟩ := questionMatch_shape hq2
  have hterm1 : (isTFHeader (strip q) || isSAHeader (strip q) ||
      isLAHeader (strip q)) = false := by
    obtain ⟨_, hB, hC, hD⟩ := headers_false_of_digit csq hdq
    rw [heq, hB, hC, hD]
    rfl
  have hterm2 : (isTFHeader (strip q2) || isSAHeader (strip q2) ||
      isLAHeader (strip q2)) = false := by
    obtain ⟨_, hB, hC, hD⟩ := headers_false_of_digit cs2 hd2
    rw [he2, hB, hC, hD]
    rfl
  have hqne : strip q ≠ [] := by rw [heq]; simp
  have hq2ne : strip q2 ≠ [] := by rw [he2]; simp
  have hscan1 : scanOptionsF [hdr, q, o1, o2, q2] ([hdr, q, o1, o2, q2] : List Str).length
        2 0 [] =
      ([⟨[l1], l1 :: '.' :: ' ' :: strip t1⟩, ⟨[l2], l2 :: '.' :: ' ' :: strip t2⟩], 4) := by
    show scanOptionsF [hdr, q, o1, o2, q2] 5 2 0 [] = _
    rw [scanOptionsF_option_step [hdr, q, o1, o2, q2] 4 2 0 [] (by simp) (by omega) l1 t1 ho1,
      scanOptionsF_option_step [hdr, q, o1, o2, q2] 3 3 1 _ (by simp) (by omega) l2 t2 ho2,
      scanOptionsF_stop_step [hdr, q, o1, o2, q2] 2 4 2 _ (by simp) (by omega) hq2ne hno]
    simp
  unfold parse_mcq_section
  rw [sectionStart_of_ne [hdr, q, o1, o2, q2] 1 (by simp) hqne]
  show mcqLoopF [hdr, q, o1, o2, q2] 5 1 [] = _
  rw [mcqLoopF_question_step [hdr, q, o1, o2, q2] 4 1 [] (by simp) n1 b1 hq hterm1, hscan1]
  rw [mcqLoopF_question_step [hdr, q, o1, o2, q2] 3 4 _ (by simp) n2 b2 hq2 hterm2]
  rw [scanOptionsF_end [hdr, q, o1, o2, q2] ([hdr, q, o1, o2, q2] : List Str).length 5 0 []
      (by simp)]
  rw [mcqLoopF_end [hdr, q, o1, o2, q2] 3 _ _ (by simp)]
  simp

/-- C1 witness: the amended statement at a concrete section whose new question
line is numbered `7` (outside the option-label class). -/
theorem c1_amended_two_options_witness :
    questionMatch (strip "7. Next?".toList) = some (['7'], "Next?".toList) ∧
    optionMatch (strip "7. Next?".toList) = none ∧
    parse_mcq_section ["Multiple Choice".toList, "1. Q?".toList, "a. yes".toList,
        "b) no".toList, "7. Next?".toList] 1 =
      ([⟨['1'], ['1'] ++ ('.' :: ' ' :: strip "Q?".toList), QKind.mcq,
          [⟨['a'], 'a' :: '.' :: ' ' :: strip "yes".toList⟩,
           ⟨['b'], 'b' :: '.' :: ' ' :: strip "no".toList⟩]⟩,
        ⟨['7'], ['7'] ++ ('.' :: ' ' :: strip "Next?".toList), QKind.mcq, []⟩], 5) :=
  ⟨by decide, by decide,
   c1_amended_two_options "Multiple Choice".toList "1. Q?".toList "a. yes".toList
     "b) no".toList "7. Next?".toList ['1'] "Q?".toList 'a' "yes".toList 'b' "no".toList
     ['7'] "Next?".toList (by decide) (by decide) (by decide) (by decide) (by decide) (by decide)⟩
